import Mathlib

/-!
# Formal model of the 3DSDepthMap core

Shallow embedding of the stereo-video synchronizer (`n3dsvideo.cc`), the
disparity refinement and depth conversion pipeline (`main.cc`), the YUV 4:2:0
plane converters (`utils.cc`), the stream-discovery scan of the constructor,
and the argument parsing / exit-code behaviour of `main`.

Machine integers are modelled as `Nat`; the `double` arithmetic of the depth
formula is modelled over `ℚ` (the source never produces a NaN there: the only
degenerate case is a vanishing denominator, whose IEEE result `inf` fails the
`depth < 65535` test and is mapped to 0, which the model expresses as an
explicit zero-denominator branch).
-/

/-! ## Stream synchronizer (`N3DSVideo`, n3dsvideo.cc)

Frames are identified by their per-side decode index (the i-th frame decoded
on a side is the value `i`).  The external libav decoder is modelled at its
boundary: a packet carries the stream it belongs to and whether
`avcodec_decode_video2` produces a frame for it; the drain path
(`data = nullptr`) yields one frame per call while the drained codec still
has buffered frames (`drainL`/`drainR`), and nothing afterwards.
`lcount`, `rcount` and `pairs` are ghost counters of decoded frames per side
and of pairing events; they drive the frame identities and instrument the
model without affecting control flow. -/

/-- Which stream a packet belongs to: left video stream, right video stream,
or any other stream of the container (skipped by `decodePacket`). -/
inductive Tag where
  | L : Tag
  | R : Tag
  | O : Tag
deriving DecidableEq

/-- A compressed packet as seen at the decoder boundary: its stream, and
whether decoding it yields a frame (`gotFrame`). -/
structure Pkt where
  tag : Tag
  got : Bool
deriving DecidableEq

/-- The synchronizer state: mirrors the fields of class `N3DSVideo` plus the
remaining container packets, the decoder drain budgets, and ghost counters. -/
structure SyncState where
  input : List Pkt
  lastTag : Tag
  flushing : Bool
  drainL : Nat
  drainR : Nat
  leftQ : List Nat
  rightQ : List Nat
  curL : Option Nat
  curR : Option Nat
  newImg : Bool
  lcount : Nat
  rcount : Nat
  pairs : Nat
deriving DecidableEq

/-- Result fields of the pairing while-loop. -/
structure PairRes where
  leftQ : List Nat
  rightQ : List Nat
  curL : Option Nat
  curR : Option Nat
  newImg : Bool
  pairs : Nat
deriving DecidableEq

/-- The pairing loop of `decodePacket` (n3dsvideo.cc:167-173): while both
FIFOs are non-empty, pop the front of each into the current-pair slot and
set the new-image flag. -/
def pairLoopGo : List Nat → List Nat → Option Nat → Option Nat → Bool → Nat → PairRes
  | [], rq, cl, cr, ni, p => ⟨[], rq, cl, cr, ni, p⟩
  | lq, [], cl, cr, ni, p => ⟨lq, [], cl, cr, ni, p⟩
  | l :: lq, r :: rq, _, _, _, p => pairLoopGo lq rq (some l) (some r) true (p + 1)

/-- Run the pairing loop on a synchronizer state. -/
def pairLoop (s : SyncState) : SyncState :=
  let t := pairLoopGo s.leftQ s.rightQ s.curL s.curR s.newImg s.pairs
  { s with leftQ := t.leftQ, rightQ := t.rightQ, curL := t.curL, curR := t.curR,
           newImg := t.newImg, pairs := t.pairs }

/-- Push a freshly decoded frame onto its side's FIFO
(n3dsvideo.cc:162-165) and run the pairing loop. -/
def pushFrame (t : Tag) (s : SyncState) : SyncState :=
  match t with
  | Tag.L => pairLoop { s with leftQ := s.leftQ ++ [s.lcount], lcount := s.lcount + 1 }
  | Tag.R => pairLoop { s with rightQ := s.rightQ ++ [s.rcount], rcount := s.rcount + 1 }
  | Tag.O => s

/-- Model of `N3DSVideo::decodePacket` for a packet of stream `t` whose decode yields
a frame iff `got` (n3dsvideo.cc:130-176): packets of other streams are
skipped (return false), a decode without a frame returns false, otherwise
the converted frame is pushed and the pairing loop runs (return true). -/
def decodePkt (s : SyncState) (t : Tag) (got : Bool) : Bool × SyncState :=
  match t with
  | Tag.O => (false, s)
  | _ => if got then (true, pushFrame t s) else (false, s)

/-- The flush invocation of `decodePacket` (`m_packet->data = nullptr`): the
packet keeps the stream index of the last packet read, so only that codec is
drained; it yields a frame while its drain budget is positive. -/
def drainStep (s : SyncState) : Bool × SyncState :=
  match s.lastTag with
  | Tag.O => (false, s)
  | Tag.L =>
      if 0 < s.drainL then decodePkt { s with drainL := s.drainL - 1 } Tag.L true
      else (false, s)
  | Tag.R =>
      if 0 < s.drainR then decodePkt { s with drainR := s.drainR - 1 } Tag.R true
      else (false, s)

/-- Model of `N3DSVideo::processStep` (n3dsvideo.cc:114-127): clear the new-image
flag; if already flushing or `av_read_frame` fails (input exhausted), run a
flush decode and keep flushing while it produces frames; otherwise decode
the packet that was read and report true. -/
def processStep (s : SyncState) : Bool × SyncState :=
  if s.flushing then
    ((drainStep { s with newImg := false }).1,
     { (drainStep { s with newImg := false }).2 with
       flushing := (drainStep { s with newImg := false }).1 })
  else
    match s.input with
    | p :: rest =>
        (true, (decodePkt { s with newImg := false, input := rest, lastTag := p.tag }
                  p.tag p.got).2)
    | [] =>
        ((drainStep { s with newImg := false }).1,
         { (drainStep { s with newImg := false }).2 with
           flushing := (drainStep { s with newImg := false }).1 })

/-- The state right after the constructor: empty FIFOs, no current pair, not
flushing; `t0` is the stream index held by the freshly initialized packet. -/
def initState (pkts : List Pkt) (dL dR : Nat) (t0 : Tag) : SyncState :=
  { input := pkts, lastTag := t0, flushing := false, drainL := dL, drainR := dR,
    leftQ := [], rightQ := [], curL := none, curR := none, newImg := false,
    lcount := 0, rcount := 0, pairs := 0 }

/-- State after `n` calls to `processStep`. -/
def runN (s : SyncState) : Nat → SyncState
  | 0 => s
  | n + 1 => (processStep (runN s n)).2

/-- Return value of the `(n+1)`-th call to `processStep`. -/
def retN (s : SyncState) (n : Nat) : Bool := (processStep (runN s n)).1

/-- Number of the first `n` steps after which `hasNewStereoImage` reports
true. -/
def flagCount (s : SyncState) : Nat → Nat
  | 0 => 0
  | n + 1 => flagCount s n + (if (runN s (n + 1)).newImg then 1 else 0)

/-- The list `[a, a+1, ..., a+n-1]` of consecutive frame indices. -/
def idsFrom : Nat → Nat → List Nat
  | _, 0 => []
  | a, n + 1 => a :: idsFrom (a + 1) n

/-- Invariant of all reachable synchronizer states: the FIFOs hold exactly
the decoded-but-unpaired frame indices in order, the number of pairing
events is `min` of the per-side decode counts, the current-pair slot holds
the last paired frame of each side, and flushing only starts once the input
is exhausted. -/
def SyncInv (s : SyncState) : Prop :=
  s.pairs = min s.lcount s.rcount ∧
  s.leftQ = idsFrom s.pairs (s.lcount - s.pairs) ∧
  s.rightQ = idsFrom s.pairs (s.rcount - s.pairs) ∧
  s.curL = (if 0 < s.pairs then some (s.pairs - 1) else none) ∧
  s.curR = (if 0 < s.pairs then some (s.pairs - 1) else none) ∧
  (s.flushing = true → s.input = []) ∧
  (s.newImg = true → 0 < s.pairs)

/-! ## Depth conversion (`computeDepth`, main.cc:118-200)

The source is compiled with `USE_STEREO_SGBM = 1` (main.cc:41), so the
ballooning-correction block (edge masks, row deflation scan, median filter,
main.cc:129-175) is excluded by the preprocessor and `computeDepth` goes
straight from the per-call minimum (the unknown sentinel) to the conversion
loop (main.cc:179-197).  The excluded block is embedded separately below
(it is the subject of the deflation claims). -/

/-- Constant `N3DSXL_CAM_DIST` (metres), main.cc:67. -/
def camDist : ℚ := 35 / 1000

/-- Constant `N3DSXL_FOCAL_LEN` (pixels), main.cc:70. -/
def focalLen : ℚ := 565

/-- Constant `N3DSXL_CONVERGENCE` (metres), main.cc:75. -/
def convergenceDist : ℚ := 25 / 100

/-- Minimum of a list of naturals (0 for the empty list). -/
def listMinD : List Nat → Nat
  | [] => 0
  | x :: xs => xs.foldl Nat.min x

/-- Row-major flattening of a field. -/
def flattenD (f : List (List Nat)) : List Nat :=
  f.foldl (fun a r => a ++ r) []

/-- The per-call unknown sentinel: the global minimum of the disparity field
(`cv::minMaxIdx`, main.cc:127). -/
def fieldMinD (f : List (List Nat)) : Nat := listMinD (flattenD f)

/-- The conversion-loop body for one pixel (main.cc:182-195): the sentinel
maps to 0; otherwise the 12:4 fixed-point value is divided by 16 and fed to
the converging-rig depth formula; results below 65535 are truncated to a
`ushort`, anything else (including the infinite quotient of a vanishing
denominator, which also fails `depth < 65535`) becomes 0. -/
def depthPixel (u r : Nat) : Nat :=
  if r = u then 0
  else if camDist / convergenceDist - ((r : ℚ) / 16) / focalLen = 0 then 0
  else if 1000 * |camDist / (camDist / convergenceDist - ((r : ℚ) / 16) / focalLen)| < 65535
    then (⌊1000 * |camDist / (camDist / convergenceDist - ((r : ℚ) / 16) / focalLen)|⌋).toNat
  else 0

/-- Model of `computeDepth` as compiled (`USE_STEREO_SGBM = 1`): compute the sentinel,
then run the conversion loop over every pixel in place. -/
def computeDepth (f : List (List Nat)) : List (List Nat) :=
  let u := fieldMinD f
  f.map (fun row => row.map (depthPixel u))

/-- Modelled from the spec (section 4.4 DepthConverter): sentinel pixels map
to 0; otherwise `depth_mm = 1000 * |baseline / (baseline/convergence -
disparity/focalLength)|` with `disparity = raw/16`; a vanishing denominator
(the infinity/NaN guard) and any depth at or beyond 65535 mm map to 0
(unknown), never a wrapped or clamped positive value; otherwise the depth in
millimetres. -/
def specDepthPixel (sentinel r : Nat) : Nat :=
  if r = sentinel then 0
  else if camDist / convergenceDist - ((r : ℚ) / 16) / focalLen = 0 then 0
  else if (65535 : ℚ) ≤ 1000 * |camDist / (camDist / convergenceDist - ((r : ℚ) / 16) / focalLen)|
    then 0
  else (⌊1000 * |camDist / (camDist / convergenceDist - ((r : ℚ) / 16) / focalLen)|⌋).toNat

/-! ## Deflation scan and median filter (main.cc:129-175, `USE_STEREO_SGBM = 0` path)

The scan reads only the two edge masks (`cEdgeRow`, `dEdgeRow`); the
disparity row is pure write target.  Mask pixels are `uchar` Canny outputs:
nonzero means edge. -/

/-- The leftward fill (main.cc:160-161): starting at `j-1` walk left while
neither mask fires, writing the sentinel.  `backFill c d u j dst` processes
indices `j-1, j-2, ..., 0`. -/
def backFill (c d : List Nat) (u : Nat) : Nat → List Nat → List Nat
  | 0, dst => dst
  | k + 1, dst =>
      if d.getD k 0 = 0 ∧ c.getD k 0 = 0 then backFill c d u k (dst.set k u) else dst

/-- The rightward fill (main.cc:165-166): from `k` walk right while `k < cols`
and neither mask fires, writing the sentinel.  The first argument is fuel
(`cols - k` suffices). -/
def fwdFill (c d : List Nat) (u cols : Nat) : Nat → Nat → List Nat → List Nat
  | 0, _, dst => dst
  | fuel + 1, k, dst =>
      if k < cols ∧ d.getD k 0 = 0 ∧ c.getD k 0 = 0 then
        fwdFill c d u cols fuel (k + 1) (dst.set k u)
      else dst

/-- The row scan (main.cc:155-169): left to right with an `onEdge` flag; an
unsupported disparity edge is overwritten (unless colour-supported) and
filled leftward; leaving an edge run fills rightward. -/
def scanGoRow (c d : List Nat) (u cols : Nat) : List Nat → Bool → List Nat → List Nat
  | [], _, dst => dst
  | j :: js, onEdge, dst =>
      if onEdge = false ∧ 0 < d.getD j 0 then
        scanGoRow c d u cols js true
          (backFill c d u j (if c.getD j 0 = 0 then dst.set j u else dst))
      else if onEdge = true ∧ d.getD j 0 = 0 then
        scanGoRow c d u cols js false (fwdFill c d u cols (cols - j) j dst)
      else scanGoRow c d u cols js onEdge dst

/-- One row of the deflation pass (`j` from 0 to `cols - 1`, `onEdge`
initially false). -/
def scanRow (c d : List Nat) (u : Nat) (dst : List Nat) : List Nat :=
  scanGoRow c d u c.length (List.range c.length) false dst

/-- The full deflation pass (main.cc:150-170): every row `i` below the mask
height is scanned against its mask rows; other rows are untouched. -/
def deflateAll (c d : List (List Nat)) (u : Nat) (f : List (List Nat)) : List (List Nat) :=
  (List.range f.length).map (fun i =>
    if i < c.length then scanRow (c.getD i []) (d.getD i []) u (f.getD i [])
    else f.getD i [])

/-- Write positions of `backFill` (masks only). -/
def backFillPos (c d : List Nat) : Nat → List Nat
  | 0 => []
  | k + 1 => if d.getD k 0 = 0 ∧ c.getD k 0 = 0 then k :: backFillPos c d k else []

/-- Write positions of `fwdFill` (masks only). -/
def fwdFillPos (c d : List Nat) (cols : Nat) : Nat → Nat → List Nat
  | 0, _ => []
  | fuel + 1, k =>
      if k < cols ∧ d.getD k 0 = 0 ∧ c.getD k 0 = 0 then
        k :: fwdFillPos c d cols fuel (k + 1)
      else []

/-- Write positions of the row scan: they depend only on the masks, never on
the disparity values. -/
def scanPos (c d : List Nat) (cols : Nat) : List Nat → Bool → List Nat
  | [], _ => []
  | j :: js, onEdge =>
      if onEdge = false ∧ 0 < d.getD j 0 then
        ((if c.getD j 0 = 0 then [j] else []) ++ backFillPos c d j) ++ scanPos c d cols js true
      else if onEdge = true ∧ d.getD j 0 = 0 then
        fwdFillPos c d cols (cols - j) j ++ scanPos c d cols js false
      else scanPos c d cols js onEdge

/-- Overwrite the listed positions with the value `u`. -/
def writeAll (u : Nat) (ps : List Nat) (dst : List Nat) : List Nat :=
  ps.foldl (fun acc k => acc.set k u) dst

/-- Insertion into a sorted list of naturals. -/
def sortIns (x : Nat) : List Nat → List Nat
  | [] => [x]
  | y :: ys => if x ≤ y then x :: y :: ys else y :: sortIns x ys

/-- Insertion sort. -/
def sortNat (l : List Nat) : List Nat := l.foldr sortIns []

/-- Replicated-border index: `i + a - 2` clamped to `[0, n-1]`
(`BORDER_REPLICATE`, the border mode of `cv::medianBlur`). -/
def borderIdx (n i a : Nat) : Nat :=
  if i + a ≤ 2 then 0 else min (i + a - 2) (n - 1)

/-- Median of the replicated-border 5x5 window centred at `(i, j)`. -/
def medianAt (f : List (List Nat)) (rows cols i j : Nat) : Nat :=
  let vals := (List.range 25).map (fun t =>
    (f.getD (borderIdx rows i (t / 5)) []).getD (borderIdx cols j (t % 5)) 0)
  (sortNat vals).getD 12 0

/-- Model of `cv::medianBlur(disparity, disparity, 5)` (main.cc:174) on a
16-bit single-channel field. -/
def median5 (f : List (List Nat)) : List (List Nat) :=
  (List.range f.length).map (fun i =>
    (List.range ((f.getD 0 []).length)).map (fun j =>
      medianAt f f.length ((f.getD 0 []).length) i j))

/-- Modelled from the spec (section 4.3 steps 2, 5, 6, and 4.4): the pipeline
that the claim asserts `computeDepth` performs on every call - compute the
sentinel from the raw field, apply the row deflation scan against the edge
masks, apply the size-5 median filter, then convert to depth. -/
def claimedPipeline (c d : List (List Nat)) (f : List (List Nat)) : List (List Nat) :=
  let u := fieldMinD f
  (median5 (deflateAll c d u f)).map (fun row => row.map (depthPixel u))

/-- A 5x5 disparity field: uniform 10 with a single outlier at the centre. -/
def exField : List (List Nat) :=
  [[10, 10, 10, 10, 10],
   [10, 10, 10, 10, 10],
   [10, 10, 100, 10, 10],
   [10, 10, 10, 10, 10],
   [10, 10, 10, 10, 10]]

/-- An all-zero (edge-free) 5x5 mask. -/
def exMask : List (List Nat) := List.replicate 5 (List.replicate 5 0)

/-! ## YUV 4:2:0 plane conversion (utils.cc:19-84)

The converters write through a running destination pointer; cells never
written keep `none`.  `ls0`/`ls1`/`ls2` are the plane linesizes.  The width
actually converted is `w8 = w & ~7 = 8 * (w / 8)` (utils.cc:26/65): the
unrolled loop runs `w8 / 8` blocks of 8 luma writes per row. -/

/-- Performs `n` consecutive byte copies `dest[dp..] = src[sp..]` (the unrolled luma
loop of `convertYUV420ToY`, 8 per block for `w8 / 8` blocks). -/
def copyRun (y : List Nat) : Nat → Nat → Nat → List (Option Nat) → List (Option Nat)
  | 0, _, _, dst => dst
  | n + 1, sp, dp, dst => copyRun y n (sp + 1) (dp + 1) (dst.set dp (some (y.getD sp 0)))

/-- The row loop of `convertYUV420ToY` (utils.cc:68-83): each row writes `w8`
luma bytes then advances the source pointer by `linesize0 - w8`. -/
def convYRows (y : List Nat) (ls0 w8 w : Nat) : Nat → Nat → List (List (Option Nat))
  | 0, _ => []
  | n + 1, sp =>
      copyRun y w8 sp 0 (List.replicate w none)
        :: convYRows y ls0 w8 w n (sp + w8 + (ls0 - w8))

/-- Model of `convertYUV420ToY` (utils.cc:62-84). -/
def convertYUV420ToY (y : List Nat) (ls0 w h : Nat) : List (List (Option Nat)) :=
  convYRows y ls0 (8 * (w / 8)) w h 0

/-- One `LOOP` macro expansion of `convertYUV420ToRGB` writes a pixel pair
`(Y, Cr, Cb), (Y, Cr, Cb)` sharing one chroma sample, then advances the
chroma pointers; `n` counts pixel pairs (4 per block for `w8 / 8` blocks,
i.e. `w8 / 2` in total). -/
def pairsRGB (y uP vP : List Nat) :
    Nat → Nat → Nat → Nat → Nat → List (Option (Nat × Nat × Nat)) →
    List (Option (Nat × Nat × Nat))
  | 0, _, _, _, _, dst => dst
  | n + 1, sp, up, vp, dp, dst =>
      pairsRGB y uP vP n (sp + 2) (up + 1) (vp + 1) (dp + 2)
        ((dst.set dp (some (y.getD sp 0, vP.getD vp 0, uP.getD up 0))).set (dp + 1)
          (some (y.getD (sp + 1) 0, vP.getD vp 0, uP.getD up 0)))

/-- The row loop of `convertYUV420ToRGB` (utils.cc:31-55): after each row the
luma pointer advances by `linesize0 - w8`; after an odd row the chroma
pointers advance to the next chroma row, after an even row they rewind by
`w8 / 2` to stay on the current one. -/
def convRGBRows (y uP vP : List Nat) (ls0 ls1 ls2 w8 w : Nat) :
    Nat → Nat → Nat → Nat → Nat → List (List (Option (Nat × Nat × Nat)))
  | 0, _, _, _, _ => []
  | n + 1, i, sp, up, vp =>
      pairsRGB y uP vP (w8 / 2) sp up vp 0 (List.replicate w none)
        :: (if i % 2 = 1 then
              convRGBRows y uP vP ls0 ls1 ls2 w8 w n (i + 1)
                (sp + w8 + (ls0 - w8)) (up + w8 / 2 + (ls1 - w8 / 2))
                (vp + w8 / 2 + (ls2 - w8 / 2))
            else
              convRGBRows y uP vP ls0 ls1 ls2 w8 w n (i + 1)
                (sp + w8 + (ls0 - w8)) (up + w8 / 2 - w8 / 2) (vp + w8 / 2 - w8 / 2))

/-- Model of `convertYUV420ToRGB` (utils.cc:19-59), up to the final opaque
`cv::cvtColor` colour transform: cells hold `(Y, Cr, Cb)` triples. -/
def convertYUV420ToRGB (y uP vP : List Nat) (ls0 ls1 ls2 w h : Nat) :
    List (List (Option (Nat × Nat × Nat))) :=
  convRGBRows y uP vP ls0 ls1 ls2 (8 * (w / 8)) w h 0 0 0 0

/-! ## Stream discovery (constructor, n3dsvideo.cc:42-88) and per-frame
checks (n3dsvideo.cc:150-154) -/

/-- A container stream as classified by `av_find_best_stream`: not a usable
video stream, or a video stream with its dimensions and whether a decoder
can be opened for it. -/
inductive StreamD where
  | nonVideo : StreamD
  | video : Nat → Nat → Bool → StreamD
deriving DecidableEq

/-- Pixel formats distinguished by `decodePacket`. -/
inductive PixFmt where
  | yuv420p : PixFmt
  | yuvj420p : PixFmt
  | other : Nat → PixFmt
deriving DecidableEq

/-- The constructor's stream loop (n3dsvideo.cc:45-88).  State: streams left
to inspect, current index `i`, accepted count `n`, session dimensions
`w x h`, `slot` (false while `curStreamIdx` still points at the left index),
and the two selected indices.  A video stream is counted, its index stored,
then rejected again (`--nStreams; continue`) if its dimensions mismatch the
first stream's; opening a decoder may fail fatally; fewer than two accepted
streams at the end is fatal. -/
def scanGo : List StreamD → Nat → Nat → Nat → Nat → Bool → Nat → Nat →
    Except String (Nat × Nat × Nat × Nat)
  | [], _, n, w, h, _, li, ri =>
      if n < 2 then Except.error "cannot find matching L/R video streams"
      else Except.ok (w, h, li, ri)
  | s :: rest, i, n, w, h, slot, li, ri =>
      match s with
      | StreamD.nonVideo => scanGo rest (i + 1) n w h slot li ri
      | StreamD.video sw sh dec =>
          if 2 ≤ n then Except.ok (w, h, li, ri)
          else
            let li' := if slot then li else i
            let ri' := if slot then i else ri
            if n + 1 = 1 then
              if dec then scanGo rest (i + 1) (n + 1) sw sh true li' ri'
              else Except.error "cannot decode stream"
            else if sw ≠ w ∨ sh ≠ h then
              scanGo rest (i + 1) n w h slot li' ri'
            else if dec then scanGo rest (i + 1) (n + 1) w h true li' ri'
            else Except.error "cannot decode stream"

/-- Run the constructor's stream-discovery scan. -/
def scanStreams (ss : List StreamD) : Except String (Nat × Nat × Nat × Nat) :=
  scanGo ss 0 0 0 0 false 0 0

/-- The per-frame checks of `decodePacket` (n3dsvideo.cc:150-154): a decoded
frame whose size differs from the session's, or whose pixel format is
neither YUV420P nor YUVJ420P, aborts with an error. -/
def frameCheck (mw mh fw fh : Nat) (fmt : PixFmt) : Except String Unit :=
  if fw ≠ mw ∨ fh ≠ mh then Except.error "frame size changed"
  else
    match fmt with
    | PixFmt.yuv420p => Except.ok ()
    | PixFmt.yuvj420p => Except.ok ()
    | PixFmt.other _ => Except.error "unsupported pixel format"

/-! ## Argument parsing and exit status (main.cc:209-249, 362-371) -/

/-- ASCII lowercase of one character (C strings are char arrays; arguments
are modelled as `List Char`). -/
def lowerChar (c : Char) : Char :=
  if 65 ≤ c.toNat ∧ c.toNat ≤ 90 then Char.ofNat (c.toNat + 32) else c

/-- Model of `_stricmp(a, b) == 0`: case-insensitive equality of C strings. -/
def striEq (a b : List Char) : Prop := a.map lowerChar = b.map lowerChar

instance (a b : List Char) : Decidable (striEq a b) := by
  unfold striEq
  infer_instance

/-- The option flags and input path accumulated by `parseArgs`. -/
structure CmdOpts where
  quiet : Bool
  saveRaw : Bool
  noDepth : Bool
  inputPath : List Char
deriving DecidableEq

/-- Model of `parseArgs` (main.cc:209-244): known flags set their option; any other
argument starting with a dash (including `--help`) prints usage and returns
false; other arguments set the input path; a missing input path returns
false.  `none` models the `return false` outcome. -/
def parseArgsGo : List (List Char) → CmdOpts → Option CmdOpts
  | [], o => if o.inputPath = [] then none else some o
  | a :: rest, o =>
      if striEq a "--quiet".toList then parseArgsGo rest { o with quiet := true }
      else if striEq a "--saveRaw".toList then parseArgsGo rest { o with saveRaw := true }
      else if striEq a "--noDepth".toList then parseArgsGo rest { o with noDepth := true }
      else
        match a with
        | '-' :: _ => none
        | _ => parseArgsGo rest { o with inputPath := a }

/-- Runs `parseArgs` over the argument vector (without `argv[0]`). -/
def parseArgsD (args : List (List Char)) : Option CmdOpts :=
  parseArgsGo args ⟨false, false, false, []⟩

/-- The exit status of `main` (main.cc:247-249, 362-371): failed parsing
returns 0; the session body is wrapped in a catch-all that prints the error
message, after which `main` still returns 0. -/
def mainExitCode (args : List (List Char)) (session : Except String Unit) : Nat :=
  match parseArgsD args with
  | none => 0
  | some _ =>
      match session with
      | Except.ok _ => 0
      | Except.error _ => 0

/-! ## Auxiliary lemmas: synchronizer -/

theorem idsFrom_length (a n : Nat) : (idsFrom a n).length = n := by
  induction n generalizing a with
  | zero => rfl
  | succ n ih => simp [idsFrom, ih]

theorem idsFrom_snoc (a n : Nat) : idsFrom a n ++ [a + n] = idsFrom a (n + 1) := by
  induction n generalizing a with
  | zero => simp [idsFrom]
  | succ n ih =>
      have h : a + (n + 1) = (a + 1) + n := by omega
      simp only [idsFrom, List.cons_append, h, ih]

theorem pairLoopGo_spec (L R : List Nat) (cl cr : Option Nat) (ni : Bool) (p : Nat) :
    pairLoopGo L R cl cr ni p =
      ⟨L.drop (min L.length R.length), R.drop (min L.length R.length),
       if min L.length R.length = 0 then cl else some (L.getD (min L.length R.length - 1) 0),
       if min L.length R.length = 0 then cr else some (R.getD (min L.length R.length - 1) 0),
       if min L.length R.length = 0 then ni else true,
       p + min L.length R.length⟩ := by
  induction L generalizing R cl cr ni p with
  | nil => simp [pairLoopGo]
  | cons l L ih =>
      cases R with
      | nil => simp [pairLoopGo]
      | cons r R =>
          have hmin : min (l :: L).length (r :: R).length = min L.length R.length + 1 := by
            simp [Nat.succ_min_succ]
          rw [show pairLoopGo (l :: L) (r :: R) cl cr ni p
                = pairLoopGo L R (some l) (some r) true (p + 1) from rfl, ih, hmin]
          cases hm : min L.length R.length with
          | zero => simp [List.drop, List.getD]
          | succ m =>
              simp only [Nat.succ_ne_zero, if_false, List.drop_succ_cons,
                Nat.add_sub_cancel, Nat.succ_sub_one]
              refine PairRes.mk.injEq _ _ _ _ _ _ _ _ _ _ _ _ ▸ ?_
              simp [List.getD_cons_succ]
              omega

theorem pairLoopGo_right_nil (L : List Nat) (cl cr : Option Nat) (ni : Bool) (p : Nat) :
    pairLoopGo L [] cl cr ni p = ⟨L, [], cl, cr, ni, p⟩ := by
  cases L <;> rfl

theorem pairLoopGo_one_left (a r : Nat) (R : List Nat) (cl cr : Option Nat) (ni : Bool)
    (p : Nat) : pairLoopGo [a] (r :: R) cl cr ni p = ⟨[], R, some a, some r, true, p + 1⟩ := by
  simp [pairLoopGo]

theorem pushFrame_left_spec {s : SyncState} (h : SyncInv s) (hni : s.newImg = false) :
    SyncInv (pushFrame Tag.L s) ∧
    (((pushFrame Tag.L s).newImg = false ∧ (pushFrame Tag.L s).pairs = s.pairs) ∨
     ((pushFrame Tag.L s).newImg = true ∧ (pushFrame Tag.L s).pairs = s.pairs + 1)) ∧
    (pushFrame Tag.L s).input = s.input ∧
    (pushFrame Tag.L s).flushing = s.flushing ∧
    (pushFrame Tag.L s).lastTag = s.lastTag ∧
    (pushFrame Tag.L s).drainL = s.drainL ∧
    (pushFrame Tag.L s).drainR = s.drainR := by
  obtain ⟨hp, hlq, hrq, hcl, hcr, hfl, hni2⟩ := h
  have hPl : s.pairs ≤ s.lcount := by omega
  have hPr : s.pairs ≤ s.rcount := by omega
  rcases Nat.eq_zero_or_pos (s.rcount - s.pairs) with hr | hr
  · -- right FIFO empty: no pairing happens
    have hrq0 : s.rightQ = [] := by rw [hrq, hr]; rfl
    have hrc : s.rcount = s.pairs := by omega
    have hres : pushFrame Tag.L s =
        { s with leftQ := s.leftQ ++ [s.lcount], lcount := s.lcount + 1 } := by
      unfold pushFrame pairLoop
      simp only [hrq0, pairLoopGo_right_nil]
    rw [hres]
    refine ⟨⟨?_, ?_, ?_, ?_, ?_, ?_, ?_⟩, Or.inl ⟨hni, rfl⟩, rfl, rfl, rfl, rfl, rfl⟩
    · simp only
      omega
    · simp only [hlq]
      have hsnoc := idsFrom_snoc s.pairs (s.lcount - s.pairs)
      rw [show s.pairs + (s.lcount - s.pairs) = s.lcount from by omega] at hsnoc
      rw [hsnoc]
      congr 1
      omega
    · simp only [hrq0]
      rw [show s.rcount - s.pairs = 0 from hr]
      rfl
    · simpa using hcl
    · simpa using hcr
    · simpa using hfl
    · simp [hni]
  · -- right FIFO non-empty: exactly one pairing pop happens
    have hlc : s.lcount = s.pairs := by omega
    have hlq0 : s.leftQ = [] := by rw [hlq, hlc]; simp [idsFrom]
    obtain ⟨k, hk⟩ : ∃ k, s.rcount - s.pairs = k + 1 := ⟨s.rcount - s.pairs - 1, by omega⟩
    have hrq1 : s.rightQ = s.pairs :: idsFrom (s.pairs + 1) k := by
      rw [hrq, hk]; rfl
    have hres : pushFrame Tag.L s =
        { s with leftQ := [], rightQ := idsFrom (s.pairs + 1) k,
                 curL := some s.lcount, curR := some s.pairs, newImg := true,
                 lcount := s.lcount + 1, pairs := s.pairs + 1 } := by
      unfold pushFrame pairLoop
      simp only [hlq0, hrq1, List.nil_append, pairLoopGo_one_left]
    rw [hres]
    refine ⟨⟨?_, ?_, ?_, ?_, ?_, ?_, ?_⟩, Or.inr ⟨rfl, rfl⟩, rfl, rfl, rfl, rfl, rfl⟩
    · simp only
      omega
    · simp only
      rw [show s.lcount + 1 - (s.pairs + 1) = 0 from by omega]
      rfl
    · simp only
      rw [show s.rcount - (s.pairs + 1) = k from by omega]
    · simp only [hlc]
      rw [if_pos (by omega : 0 < s.pairs + 1)]
      simp
    · simp only
      rw [if_pos (by omega : 0 < s.pairs + 1)]
      simp
    · simpa using hfl
    · simp

theorem pairLoopGo_one_right (l : Nat) (L : List Nat) (r : Nat) (cl cr : Option Nat)
    (ni : Bool) (p : Nat) :
    pairLoopGo (l :: L) [r] cl cr ni p = ⟨L, [], some l, some r, true, p + 1⟩ := by
  simp [pairLoopGo, pairLoopGo_right_nil]

theorem pairLoopGo_left_nil (R : List Nat) (cl cr : Option Nat) (ni : Bool) (p : Nat) :
    pairLoopGo [] R cl cr ni p = ⟨[], R, cl, cr, ni, p⟩ := by
  simp [pairLoopGo]

theorem tag_cases (t : Tag) : t = Tag.L ∨ t = Tag.R ∨ t = Tag.O := by
  cases t
  · exact Or.inl rfl
  · exact Or.inr (Or.inl rfl)
  · exact Or.inr (Or.inr rfl)

theorem pushFrame_right_spec {s : SyncState} (h : SyncInv s) (hni : s.newImg = false) :
    SyncInv (pushFrame Tag.R s) ∧
    (((pushFrame Tag.R s).newImg = false ∧ (pushFrame Tag.R s).pairs = s.pairs) ∨
     ((pushFrame Tag.R s).newImg = true ∧ (pushFrame Tag.R s).pairs = s.pairs + 1)) ∧
    (pushFrame Tag.R s).input = s.input ∧
    (pushFrame Tag.R s).flushing = s.flushing ∧
    (pushFrame Tag.R s).lastTag = s.lastTag ∧
    (pushFrame Tag.R s).drainL = s.drainL ∧
    (pushFrame Tag.R s).drainR = s.drainR := by
  obtain ⟨hp, hlq, hrq, hcl, hcr, hfl, hni2⟩ := h
  have hPl : s.pairs ≤ s.lcount := by omega
  have hPr : s.pairs ≤ s.rcount := by omega
  rcases Nat.eq_zero_or_pos (s.lcount - s.pairs) with hl | hl
  · -- left FIFO empty: no pairing happens
    have hlq0 : s.leftQ = [] := by rw [hlq, hl]; rfl
    have hlc : s.lcount = s.pairs := by omega
    have hres : pushFrame Tag.R s =
        { s with rightQ := s.rightQ ++ [s.rcount], rcount := s.rcount + 1 } := by
      unfold pushFrame pairLoop
      simp only [hlq0, pairLoopGo_left_nil]
    rw [hres]
    refine ⟨⟨?_, ?_, ?_, ?_, ?_, ?_, ?_⟩, Or.inl ⟨hni, rfl⟩, rfl, rfl, rfl, rfl, rfl⟩
    · simp only
      omega
    · simp only [hlq0]
      rw [show s.lcount - s.pairs = 0 from hl]
      rfl
    · simp only [hrq]
      have hsnoc := idsFrom_snoc s.pairs (s.rcount - s.pairs)
      rw [show s.pairs + (s.rcount - s.pairs) = s.rcount from by omega] at hsnoc
      rw [hsnoc]
      congr 1
      omega
    · simpa using hcl
    · simpa using hcr
    · simpa using hfl
    · simp [hni]
  · -- left FIFO non-empty: exactly one pairing pop happens
    have hrc : s.rcount = s.pairs := by omega
    have hrq0 : s.rightQ = [] := by rw [hrq, hrc]; simp [idsFrom]
    obtain ⟨k, hk⟩ : ∃ k, s.lcount - s.pairs = k + 1 := ⟨s.lcount - s.pairs - 1, by omega⟩
    have hlq1 : s.leftQ = s.pairs :: idsFrom (s.pairs + 1) k := by
      rw [hlq, hk]; rfl
    have hres : pushFrame Tag.R s =
        { s with leftQ := idsFrom (s.pairs + 1) k, rightQ := [],
                 curL := some s.pairs, curR := some s.rcount, newImg := true,
                 rcount := s.rcount + 1, pairs := s.pairs + 1 } := by
      unfold pushFrame pairLoop
      simp only [hrq0, hlq1, List.nil_append, pairLoopGo_one_right]
    rw [hres]
    refine ⟨⟨?_, ?_, ?_, ?_, ?_, ?_, ?_⟩, Or.inr ⟨rfl, rfl⟩, rfl, rfl, rfl, rfl, rfl⟩
    · simp only
      omega
    · simp only
      rw [show s.lcount - (s.pairs + 1) = k from by omega]
    · simp only
      rw [show s.rcount + 1 - (s.pairs + 1) = 0 from by omega]
      rfl
    · simp only
      rw [if_pos (by omega : 0 < s.pairs + 1)]
      simp
    · simp only [hrc]
      rw [if_pos (by omega : 0 < s.pairs + 1)]
      simp
    · simpa using hfl
    · simp

/-- Transfer the invariant across a state whose pairing-relevant fields
agree with a state known to satisfy it. -/
theorem syncInv_fields {s t : SyncState} (h : SyncInv s)
    (h1 : t.pairs = s.pairs) (h2 : t.lcount = s.lcount) (h3 : t.rcount = s.rcount)
    (h4 : t.leftQ = s.leftQ) (h5 : t.rightQ = s.rightQ) (h6 : t.curL = s.curL)
    (h7 : t.curR = s.curR) (h8 : t.flushing = true → t.input = [])
    (h9 : t.newImg = true → 0 < s.pairs) : SyncInv t := by
  obtain ⟨hp, hlq, hrq, hcl, hcr, hfl, hni2⟩ := h
  unfold SyncInv
  rw [h1, h2, h3, h4, h5, h6, h7]
  exact ⟨hp, hlq, hrq, hcl, hcr, h8, h9⟩

/-- The flush form common to the two `processStep` branches that call the
decoder's drain path: invariant preservation, flag/pairing correspondence
and drain monotonicity. -/
theorem drainFlush_spec {s : SyncState} (h : SyncInv s) (hin : s.input = []) :
    SyncInv { (drainStep { s with newImg := false }).2 with
              flushing := (drainStep { s with newImg := false }).1 } ∧
    ((({ (drainStep { s with newImg := false }).2 with
         flushing := (drainStep { s with newImg := false }).1 } : SyncState).newImg = false ∧
      ({ (drainStep { s with newImg := false }).2 with
         flushing := (drainStep { s with newImg := false }).1 } : SyncState).pairs = s.pairs) ∨
     (({ (drainStep { s with newImg := false }).2 with
         flushing := (drainStep { s with newImg := false }).1 } : SyncState).newImg = true ∧
      ({ (drainStep { s with newImg := false }).2 with
         flushing := (drainStep { s with newImg := false }).1 } : SyncState).pairs
        = s.pairs + 1)) ∧
    ({ (drainStep { s with newImg := false }).2 with
       flushing := (drainStep { s with newImg := false }).1 } : SyncState).drainL ≤ s.drainL ∧
    ({ (drainStep { s with newImg := false }).2 with
       flushing := (drainStep { s with newImg := false }).1 } : SyncState).drainR ≤ s.drainR := by
  rcases tag_cases s.lastTag with hlt | hlt | hlt
  · -- last packet belonged to the left stream
    by_cases hd : 0 < s.drainL
    · have hds : drainStep { s with newImg := false }
          = (true, pushFrame Tag.L { s with newImg := false, drainL := s.drainL - 1 }) := by
        simp [drainStep, decodePkt, hlt, hd]
      rw [hds]
      have hs1 : SyncInv ({ s with newImg := false, drainL := s.drainL - 1 } : SyncState) :=
        syncInv_fields h rfl rfl rfl rfl rfl rfl rfl
          (fun hb => by simpa [hin] using hb) (by simp)
      obtain ⟨hinv2, hdisj, hi2, hfl2, hlt2, hdl2, hdr2⟩ := pushFrame_left_spec hs1 rfl
      set r2 := pushFrame Tag.L ({ s with newImg := false, drainL := s.drainL - 1 }) with hr2
      refine ⟨?_, ?_, ?_, ?_⟩
      · refine syncInv_fields hinv2 rfl rfl rfl rfl rfl rfl rfl ?_ ?_
        · intro hb
          show r2.input = []
          rw [hi2]
          simpa using hin
        · intro hb
          exact hinv2.2.2.2.2.2.2 hb
      · rcases hdisj with ⟨ha, hb⟩ | ⟨ha, hb⟩
        · exact Or.inl ⟨ha, by simpa using hb⟩
        · exact Or.inr ⟨ha, by simpa using hb⟩
      · show r2.drainL ≤ s.drainL
        rw [hdl2]
        simp only
        omega
      · show r2.drainR ≤ s.drainR
        rw [hdr2]
    · have hds : drainStep { s with newImg := false }
          = (false, { s with newImg := false }) := by
        simp [drainStep, hlt, hd]
      rw [hds]
      exact ⟨syncInv_fields h rfl rfl rfl rfl rfl rfl rfl (by simp) (by simp),
        Or.inl ⟨rfl, rfl⟩, Nat.le_refl _, Nat.le_refl _⟩
  · -- last packet belonged to the right stream
    by_cases hd : 0 < s.drainR
    · have hds : drainStep { s with newImg := false }
          = (true, pushFrame Tag.R { s with newImg := false, drainR := s.drainR - 1 }) := by
        simp [drainStep, decodePkt, hlt, hd]
      rw [hds]
      have hs1 : SyncInv ({ s with newImg := false, drainR := s.drainR - 1 } : SyncState) :=
        syncInv_fields h rfl rfl rfl rfl rfl rfl rfl
          (fun hb => by simpa [hin] using hb) (by simp)
      obtain ⟨hinv2, hdisj, hi2, hfl2, hlt2, hdl2, hdr2⟩ := pushFrame_right_spec hs1 rfl
      set r2 := pushFrame Tag.R ({ s with newImg := false, drainR := s.drainR - 1 }) with hr2
      refine ⟨?_, ?_, ?_, ?_⟩
      · refine syncInv_fields hinv2 rfl rfl rfl rfl rfl rfl rfl ?_ ?_
        · intro hb
          show r2.input = []
          rw [hi2]
          simpa using hin
        · intro hb
          exact hinv2.2.2.2.2.2.2 hb
      · rcases hdisj with ⟨ha, hb⟩ | ⟨ha, hb⟩
        · exact Or.inl ⟨ha, by simpa using hb⟩
        · exact Or.inr ⟨ha, by simpa using hb⟩
      · show r2.drainL ≤ s.drainL
        rw [hdl2]
      · show r2.drainR ≤ s.drainR
        rw [hdr2]
        simp only
        omega
    · have hds : drainStep { s with newImg := false }
          = (false, { s with newImg := false }) := by
        simp [drainStep, hlt, hd]
      rw [hds]
      exact ⟨syncInv_fields h rfl rfl rfl rfl rfl rfl rfl (by simp) (by simp),
        Or.inl ⟨rfl, rfl⟩, Nat.le_refl _, Nat.le_refl _⟩
  · -- last packet belonged to neither video stream: the drain is a no-op
    have hds : drainStep { s with newImg := false }
        = (false, { s with newImg := false }) := by
      simp [drainStep, hlt]
    rw [hds]
    exact ⟨syncInv_fields h rfl rfl rfl rfl rfl rfl rfl (by simp) (by simp),
      Or.inl ⟨rfl, rfl⟩, Nat.le_refl _, Nat.le_refl _⟩

/-- The main step lemma: one `processStep` preserves the invariant, performs
at most one pairing event and sets the flag exactly when one happened, and
never grows the drain budgets. -/
theorem step_main {s : SyncState} (h : SyncInv s) :
    SyncInv (processStep s).2 ∧
    (((processStep s).2.newImg = false ∧ (processStep s).2.pairs = s.pairs) ∨
     ((processStep s).2.newImg = true ∧ (processStep s).2.pairs = s.pairs + 1)) ∧
    (processStep s).2.drainL ≤ s.drainL ∧ (processStep s).2.drainR ≤ s.drainR := by
  by_cases hf : s.flushing = true
  · have hin : s.input = [] := h.2.2.2.2.2.1 hf
    have hps : processStep s =
        ((drainStep { s with newImg := false }).1,
         { (drainStep { s with newImg := false }).2 with
           flushing := (drainStep { s with newImg := false }).1 }) := by
      simp [processStep, hf]
    rw [hps]
    exact drainFlush_spec h hin
  · have hf' : s.flushing = false := by simpa using hf
    cases hin : s.input with
    | nil =>
        have hps : processStep s =
            ((drainStep { s with newImg := false }).1,
             { (drainStep { s with newImg := false }).2 with
               flushing := (drainStep { s with newImg := false }).1 }) := by
          simp [processStep, hf', hin]
        rw [hps]
        exact drainFlush_spec h hin
    | cons p rest =>
        have hps : processStep s =
            (true, (decodePkt { s with newImg := false, input := rest, lastTag := p.tag }
                      p.tag p.got).2) := by
          simp [processStep, hf', hin]
        rw [hps]
        have hs1 : SyncInv
            ({ s with newImg := false, input := rest, lastTag := p.tag } : SyncState) :=
          syncInv_fields h rfl rfl rfl rfl rfl rfl rfl
            (fun hb => by simpa [hf'] using hb) (by simp)
        rcases tag_cases p.tag with ht | ht | ht
        · -- left-stream packet
          rcases Bool.eq_false_or_eq_true p.got with hg | hg
          · have hdp : decodePkt
                ({ s with newImg := false, input := rest, lastTag := p.tag }) p.tag p.got
                = (true, pushFrame Tag.L
                    ({ s with newImg := false, input := rest, lastTag := p.tag })) := by
              simp [decodePkt, ht, hg]
            rw [hdp]
            obtain ⟨hinv2, hdisj, hi2, hfl2, hlt2, hdl2, hdr2⟩ := pushFrame_left_spec hs1 rfl
            refine ⟨hinv2, ?_, ?_, ?_⟩
            · rcases hdisj with ⟨ha, hb⟩ | ⟨ha, hb⟩
              · exact Or.inl ⟨ha, by simpa using hb⟩
              · exact Or.inr ⟨ha, by simpa using hb⟩
            · rw [hdl2]
            · rw [hdr2]
          · have hdp : decodePkt
                ({ s with newImg := false, input := rest, lastTag := p.tag }) p.tag p.got
                = (false, { s with newImg := false, input := rest, lastTag := p.tag }) := by
              simp [decodePkt, ht, hg]
            rw [hdp]
            exact ⟨hs1, Or.inl ⟨rfl, rfl⟩, Nat.le_refl _, Nat.le_refl _⟩
        · -- right-stream packet
          rcases Bool.eq_false_or_eq_true p.got with hg | hg
          · have hdp : decodePkt
                ({ s with newImg := false, input := rest, lastTag := p.tag }) p.tag p.got
                = (true, pushFrame Tag.R
                    ({ s with newImg := false, input := rest, lastTag := p.tag })) := by
              simp [decodePkt, ht, hg]
            rw [hdp]
            obtain ⟨hinv2, hdisj, hi2, hfl2, hlt2, hdl2, hdr2⟩ := pushFrame_right_spec hs1 rfl
            refine ⟨hinv2, ?_, ?_, ?_⟩
            · rcases hdisj with ⟨ha, hb⟩ | ⟨ha, hb⟩
              · exact Or.inl ⟨ha, by simpa using hb⟩
              · exact Or.inr ⟨ha, by simpa using hb⟩
            · rw [hdl2]
            · rw [hdr2]
          · have hdp : decodePkt
                ({ s with newImg := false, input := rest, lastTag := p.tag }) p.tag p.got
                = (false, { s with newImg := false, input := rest, lastTag := p.tag }) := by
              simp [decodePkt, ht, hg]
            rw [hdp]
            exact ⟨hs1, Or.inl ⟨rfl, rfl⟩, Nat.le_refl _, Nat.le_refl _⟩
        · -- packet of another stream: skipped
          have hdp : decodePkt ({ s with newImg := false, input := rest, lastTag := p.tag })
              p.tag p.got
              = (false, { s with newImg := false, input := rest, lastTag := p.tag }) := by
            simp [decodePkt, ht]
          rw [hdp]
          exact ⟨hs1, Or.inl ⟨rfl, rfl⟩, Nat.le_refl _, Nat.le_refl _⟩

/-- The initial state satisfies the invariant. -/
theorem syncInv_init (pkts : List Pkt) (dL dR : Nat) (t0 : Tag) :
    SyncInv (initState pkts dL dR t0) := by
  refine ⟨rfl, rfl, rfl, ?_, ?_, ?_, ?_⟩ <;> simp [initState]

/-- Every reachable state satisfies the invariant. -/
theorem syncInv_runN (pkts : List Pkt) (dL dR : Nat) (t0 : Tag) (n : Nat) :
    SyncInv (runN (initState pkts dL dR t0) n) := by
  induction n with
  | zero => exact syncInv_init pkts dL dR t0
  | succ n ih => exact (step_main ih).1

/-- The flag counter tracks the ghost pairing counter. -/
theorem flagCount_eq_pairs (pkts : List Pkt) (dL dR : Nat) (t0 : Tag) (n : Nat) :
    flagCount (initState pkts dL dR t0) n = (runN (initState pkts dL dR t0) n).pairs := by
  induction n with
  | zero => rfl
  | succ n ih =>
      have hstep := step_main (syncInv_runN pkts dL dR t0 n)
      have hrun : runN (initState pkts dL dR t0) (n + 1)
          = (processStep (runN (initState pkts dL dR t0) n)).2 := rfl
      rcases hstep.2.1 with ⟨ha, hb⟩ | ⟨ha, hb⟩
      · rw [flagCount, ih, hrun, ha, hb]
        simp
      · rw [flagCount, ih, hrun, ha, hb]
        simp

/-- Drain budgets never grow along a run. -/
theorem runN_drain_le (pkts : List Pkt) (dL dR : Nat) (t0 : Tag) (n : Nat) :
    (runN (initState pkts dL dR t0) n).drainL ≤ dL ∧
    (runN (initState pkts dL dR t0) n).drainR ≤ dR := by
  induction n with
  | zero => exact ⟨Nat.le_refl _, Nat.le_refl _⟩
  | succ n ih =>
      have hstep := step_main (syncInv_runN pkts dL dR t0 n)
      exact ⟨Nat.le_trans hstep.2.2.1 ih.1, Nat.le_trans hstep.2.2.2 ih.2⟩

/-- Appending runs. -/
theorem runN_add (s : SyncState) (a b : Nat) : runN s (a + b) = runN (runN s a) b := by
  induction b with
  | zero => rfl
  | succ b ih => rw [show a + (b + 1) = (a + b) + 1 from rfl, runN, ih, runN]

theorem retN_add (s : SyncState) (a b : Nat) : retN s (a + b) = retN (runN s a) b := by
  unfold retN
  rw [runN_add]

/-- Shifting one step to the front of a run. -/
theorem runN_shift (s : SyncState) (n : Nat) :
    runN s (n + 1) = runN ((processStep s).2) n := by
  induction n with
  | zero => rfl
  | succ n ih => rw [runN, ih, runN]

theorem retN_shift (s : SyncState) (n : Nat) :
    retN s (n + 1) = retN ((processStep s).2) n := by
  unfold retN
  rw [runN_shift]

/-! ## Auxiliary lemmas: flushing -/

/-- Frames still drainable from the codec of the stale packet stream. -/
def muDrain (s : SyncState) : Nat :=
  match s.lastTag with
  | Tag.O => 0
  | Tag.L => s.drainL
  | Tag.R => s.drainR

/-- Lemma: `pushFrame` only touches the FIFOs, the pair slot, the flag and the
ghost counters. -/
theorem pushFrame_frame (t : Tag) (s : SyncState) :
    (pushFrame t s).input = s.input ∧ (pushFrame t s).lastTag = s.lastTag ∧
    (pushFrame t s).flushing = s.flushing ∧
    (pushFrame t s).drainL = s.drainL ∧ (pushFrame t s).drainR = s.drainR := by
  cases t <;> exact ⟨rfl, rfl, rfl, rfl, rfl⟩

/-- With the input exhausted, `processStep` always takes the flush branch. -/
theorem processStep_flush_form {s : SyncState} (hin : s.input = []) :
    processStep s =
      ((drainStep { s with newImg := false }).1,
       { (drainStep { s with newImg := false }).2 with
         flushing := (drainStep { s with newImg := false }).1 }) := by
  by_cases hf : s.flushing = true
  · simp [processStep, hf]
  · have hf' : s.flushing = false := by simpa using hf
    simp [processStep, hf', hin]

/-- A successful flush decode: returns true, keeps the input empty and the
stale stream index, and drains exactly one frame from that codec. -/
theorem muDrain_L {s : SyncState} (h : s.lastTag = Tag.L) : muDrain s = s.drainL := by
  unfold muDrain
  rw [h]

theorem muDrain_R {s : SyncState} (h : s.lastTag = Tag.R) : muDrain s = s.drainR := by
  unfold muDrain
  rw [h]

theorem muDrain_O {s : SyncState} (h : s.lastTag = Tag.O) : muDrain s = 0 := by
  unfold muDrain
  rw [h]

/-- A successful flush decode: returns true, keeps the input empty and the
stale stream index, and drains exactly one frame from that codec. -/
theorem flush_succ_mu {s : SyncState} (hin : s.input = []) (hmu : 0 < muDrain s) :
    (processStep s).1 = true ∧ (processStep s).2.input = [] ∧
    (processStep s).2.lastTag = s.lastTag ∧ muDrain (processStep s).2 + 1 = muDrain s := by
  have hform := processStep_flush_form hin
  rcases tag_cases s.lastTag with hlt | hlt | hlt
  · have hd : 0 < s.drainL := by rw [muDrain_L hlt] at hmu; exact hmu
    have hds : drainStep { s with newImg := false }
        = (true, pushFrame Tag.L { s with newImg := false, drainL := s.drainL - 1 }) := by
      simp [drainStep, decodePkt, hlt, hd]
    rw [hform, hds]
    obtain ⟨hi, hl, hfl, hdl, hdr⟩ :=
      pushFrame_frame Tag.L { s with newImg := false, drainL := s.drainL - 1 }
    have hl2 : ({ pushFrame Tag.L { s with newImg := false, drainL := s.drainL - 1 }
        with flushing := true } : SyncState).lastTag = Tag.L := by
      show (pushFrame Tag.L { s with newImg := false, drainL := s.drainL - 1 }).lastTag
        = Tag.L
      rw [hl]
      simpa using hlt
    have hdl2 : ({ pushFrame Tag.L { s with newImg := false, drainL := s.drainL - 1 }
        with flushing := true } : SyncState).drainL = s.drainL - 1 := by
      show (pushFrame Tag.L { s with newImg := false, drainL := s.drainL - 1 }).drainL
        = s.drainL - 1
      rw [hdl]
    refine ⟨rfl, by simpa [hin] using hi, by rw [hl2, hlt], ?_⟩
    rw [muDrain_L hl2, hdl2, muDrain_L hlt]
    omega
  · have hd : 0 < s.drainR := by rw [muDrain_R hlt] at hmu; exact hmu
    have hds : drainStep { s with newImg := false }
        = (true, pushFrame Tag.R { s with newImg := false, drainR := s.drainR - 1 }) := by
      simp [drainStep, decodePkt, hlt, hd]
    rw [hform, hds]
    obtain ⟨hi, hl, hfl, hdl, hdr⟩ :=
      pushFrame_frame Tag.R { s with newImg := false, drainR := s.drainR - 1 }
    have hl2 : ({ pushFrame Tag.R { s with newImg := false, drainR := s.drainR - 1 }
        with flushing := true } : SyncState).lastTag = Tag.R := by
      show (pushFrame Tag.R { s with newImg := false, drainR := s.drainR - 1 }).lastTag
        = Tag.R
      rw [hl]
      simpa using hlt
    have hdr2 : ({ pushFrame Tag.R { s with newImg := false, drainR := s.drainR - 1 }
        with flushing := true } : SyncState).drainR = s.drainR - 1 := by
      show (pushFrame Tag.R { s with newImg := false, drainR := s.drainR - 1 }).drainR
        = s.drainR - 1
      rw [hdr]
    refine ⟨rfl, by simpa [hin] using hi, by rw [hl2, hlt], ?_⟩
    rw [muDrain_R hl2, hdr2, muDrain_R hlt]
    omega
  · exfalso
    rw [muDrain_O hlt] at hmu
    omega


/-- An exhausted drain: `processStep` returns false and only clears the two
flags. -/
theorem flush_done_step {s : SyncState} (hin : s.input = []) (hmu : muDrain s = 0) :
    processStep s = (false, { s with newImg := false, flushing := false }) := by
  have hform := processStep_flush_form hin
  rcases tag_cases s.lastTag with hlt | hlt | hlt
  · have hd : s.drainL = 0 := by
      have : muDrain s = s.drainL := by unfold muDrain; rw [hlt]
      omega
    have hds : drainStep { s with newImg := false }
        = (false, { s with newImg := false }) := by
      simp [drainStep, hlt, hd]
    rw [hform, hds]
  · have hd : s.drainR = 0 := by
      have : muDrain s = s.drainR := by unfold muDrain; rw [hlt]
      omega
    have hds : drainStep { s with newImg := false }
        = (false, { s with newImg := false }) := by
      simp [drainStep, hlt, hd]
    rw [hform, hds]
  · have hds : drainStep { s with newImg := false }
        = (false, { s with newImg := false }) := by
      simp [drainStep, hlt]
    rw [hform, hds]

/-- Once the drain is exhausted, every further step returns false, reports no
new pair, and keeps the state drained. -/
theorem flush_stable {s : SyncState} (hin : s.input = []) (hmu : muDrain s = 0) (j : Nat) :
    retN s j = false ∧ (runN s (j + 1)).newImg = false ∧
    (runN s j).input = [] ∧ muDrain (runN s j) = 0 := by
  induction j generalizing s with
  | zero =>
      have hstep := flush_done_step hin hmu
      refine ⟨?_, ?_, hin, hmu⟩
      · unfold retN runN
        rw [hstep]
      · show (processStep (runN s 0)).2.newImg = false
        unfold runN
        rw [hstep]
  | succ j ih =>
      have hstep := flush_done_step hin hmu
      have hs' : (processStep s).2 = { s with newImg := false, flushing := false } := by
        rw [hstep]
      have hin' : (processStep s).2.input = [] := by rw [hs']; simpa using hin
      have hmu' : muDrain (processStep s).2 = 0 := by
        rw [hs']
        unfold muDrain
        unfold muDrain at hmu
        simpa using hmu
      obtain ⟨ha, hb, hc, hd⟩ := ih hin' hmu'
      refine ⟨?_, ?_, ?_, ?_⟩
      · rw [retN_shift]; exact ha
      · rw [runN_shift]; exact hb
      · rw [runN_shift]; exact hc
      · rw [runN_shift]; exact hd

/-- From any input-exhausted state, within `muDrain` further steps a call
returns false. -/
theorem flush_terminates_aux (m : Nat) :
    ∀ s : SyncState, s.input = [] → muDrain s ≤ m → ∃ k, k ≤ m ∧ retN s k = false := by
  induction m with
  | zero =>
      intro s hin hmu
      refine ⟨0, Nat.le_refl 0, ?_⟩
      unfold retN runN
      rw [flush_done_step hin (by omega)]
  | succ m ih =>
      intro s hin hmu
      by_cases h0 : muDrain s = 0
      · refine ⟨0, Nat.zero_le _, ?_⟩
        unfold retN runN
        rw [flush_done_step hin h0]
      · obtain ⟨hret, hin', hlt', hmu'⟩ := flush_succ_mu hin (by omega)
        obtain ⟨k, hk, hkf⟩ := ih (processStep s).2 hin' (by omega)
        exact ⟨k + 1, by omega, by rw [retN_shift]; exact hkf⟩

/-- A false return can only come from an exhausted drain in the flush
branch, and it fully characterizes the next state. -/
theorem ret_false_char {s : SyncState} (hin : s.input = [])
    (hret : (processStep s).1 = false) :
    muDrain s = 0 ∧ (processStep s).2 = { s with newImg := false, flushing := false } := by
  by_cases h0 : muDrain s = 0
  · exact ⟨h0, by rw [flush_done_step hin h0]⟩
  · exfalso
    obtain ⟨hret2, _, _, _⟩ := flush_succ_mu hin (by omega)
    rw [hret2] at hret
    exact Bool.true_eq_false ▸ (by simpa using hret)

/-- The input list stays empty along any run that starts empty. -/
theorem input_nil_run {s : SyncState} (hin : s.input = []) (j : Nat) :
    (runN s j).input = [] := by
  induction j generalizing s with
  | zero => exact hin
  | succ j ih =>
      rw [runN_shift]
      refine ih ?_
      by_cases h0 : muDrain s = 0
      · rw [(ret_false_char hin ?_).2]
        · simpa using hin
        · rw [flush_done_step hin h0]
      · exact (flush_succ_mu hin (by omega)).2.1

/-! ## Claim theorems: synchronizer -/

/-- Drains from two states with the same stale tag and budgets agree. -/
theorem muDrain_congr {a b : SyncState} (h1 : a.lastTag = b.lastTag)
    (h2 : a.drainL = b.drainL) (h3 : a.drainR = b.drainR) : muDrain a = muDrain b := by
  rcases tag_cases b.lastTag with h | h | h
  · rw [muDrain_L (h1.trans h), muDrain_L h, h2]
  · rw [muDrain_R (h1.trans h), muDrain_R h, h3]
  · rw [muDrain_O (h1.trans h), muDrain_O h]

/-- C1: over any interleaving of decode events, the number of steps after
which `hasNewStereoImage` reports true equals
`min(leftFramesDecoded, rightFramesDecoded)`, and the flag is set after a
step exactly when that step performed a pairing event. -/
theorem stereo_pair_count_min (pkts : List Pkt) (dL dR : Nat) (t0 : Tag) (n : Nat) :
    flagCount (initState pkts dL dR t0) n
      = min (runN (initState pkts dL dR t0) n).lcount
          (runN (initState pkts dL dR t0) n).rcount ∧
    ∀ i : Nat,
      ((runN (initState pkts dL dR t0) (i + 1)).newImg = true ↔
        (runN (initState pkts dL dR t0) (i + 1)).pairs
          = (runN (initState pkts dL dR t0) i).pairs + 1) := by
  constructor
  · rw [flagCount_eq_pairs]
    exact (syncInv_runN pkts dL dR t0 n).1
  · intro i
    have hstep := step_main (syncInv_runN pkts dL dR t0 i)
    have hrun : runN (initState pkts dL dR t0) (i + 1)
        = (processStep (runN (initState pkts dL dR t0) i)).2 := rfl
    rw [hrun]
    rcases hstep.2.1 with ⟨ha, hb⟩ | ⟨ha, hb⟩
    · constructor
      · intro hc
        rw [ha] at hc
        exact absurd hc (by simp)
      · intro hc
        rw [hb] at hc
        omega
    · exact ⟨fun _ => hb, fun _ => ha⟩

/-- Witness for C1: two left frames and one right frame interleaved yield
exactly one flagged step. -/
theorem stereo_pair_count_min_witness :
    flagCount (initState [⟨Tag.L, true⟩, ⟨Tag.L, true⟩, ⟨Tag.R, true⟩] 0 0 Tag.O) 3 = 1 :=
  (stereo_pair_count_min [⟨Tag.L, true⟩, ⟨Tag.L, true⟩, ⟨Tag.R, true⟩] 0 0 Tag.O 3).1.trans
    (by decide)

/-- C2: whenever a new pair is reported, the pair slot holds the i-th frame
decoded on each side (i counting pairing events); and on arbitrary FIFO
contents the pairing loop pops until one FIFO is exhausted and retains only
the deepest pairing in the slot. -/
theorem pairing_fifo_order :
    (∀ (pkts : List Pkt) (dL dR : Nat) (t0 : Tag) (n : Nat),
      (runN (initState pkts dL dR t0) n).newImg = true →
      0 < (runN (initState pkts dL dR t0) n).pairs ∧
      (runN (initState pkts dL dR t0) n).curL
        = some ((runN (initState pkts dL dR t0) n).pairs - 1) ∧
      (runN (initState pkts dL dR t0) n).curR
        = some ((runN (initState pkts dL dR t0) n).pairs - 1)) ∧
    (∀ s : SyncState,
      (pairLoop s).leftQ = s.leftQ.drop (min s.leftQ.length s.rightQ.length) ∧
      (pairLoop s).rightQ = s.rightQ.drop (min s.leftQ.length s.rightQ.length) ∧
      (pairLoop s).pairs = s.pairs + min s.leftQ.length s.rightQ.length ∧
      (0 < min s.leftQ.length s.rightQ.length →
        (pairLoop s).curL
          = some (s.leftQ.getD (min s.leftQ.length s.rightQ.length - 1) 0) ∧
        (pairLoop s).curR
          = some (s.rightQ.getD (min s.leftQ.length s.rightQ.length - 1) 0) ∧
        (pairLoop s).newImg = true)) := by
  constructor
  · intro pkts dL dR t0 n hni
    obtain ⟨hp, hlq, hrq, hcl, hcr, hfl, hni2⟩ := syncInv_runN pkts dL dR t0 n
    have hpos := hni2 hni
    exact ⟨hpos, by rw [hcl, if_pos hpos], by rw [hcr, if_pos hpos]⟩
  · intro s
    unfold pairLoop
    rw [pairLoopGo_spec]
    refine ⟨rfl, rfl, rfl, ?_⟩
    intro hm
    have hm' : ¬ (min s.leftQ.length s.rightQ.length = 0) := by omega
    refine ⟨?_, ?_, ?_⟩
    · show (if min s.leftQ.length s.rightQ.length = 0 then s.curL
          else some (s.leftQ.getD (min s.leftQ.length s.rightQ.length - 1) 0)) = _
      rw [if_neg hm']
    · show (if min s.leftQ.length s.rightQ.length = 0 then s.curR
          else some (s.rightQ.getD (min s.leftQ.length s.rightQ.length - 1) 0)) = _
      rw [if_neg hm']
    · show (if min s.leftQ.length s.rightQ.length = 0 then s.newImg else true) = true
      rw [if_neg hm']

/-- Witness for C2: after L then R the slot holds the first frame of each
side. -/
theorem pairing_fifo_order_witness :
    (runN (initState [⟨Tag.L, true⟩, ⟨Tag.R, true⟩] 0 0 Tag.O) 2).curL = some 0 ∧
    (runN (initState [⟨Tag.L, true⟩, ⟨Tag.R, true⟩] 0 0 Tag.O) 2).curR = some 0 := by
  have h := pairing_fifo_order.1 [⟨Tag.L, true⟩, ⟨Tag.R, true⟩] 0 0 Tag.O 2 (by decide)
  exact ⟨h.2.1.trans (by decide), h.2.2.trans (by decide)⟩

/-- C9: whenever `processStep` returns, at least one unmatched FIFO is
empty. -/
theorem queues_never_both_nonempty (pkts : List Pkt) (dL dR : Nat) (t0 : Tag) (n : Nat) :
    min (runN (initState pkts dL dR t0) n).leftQ.length
        (runN (initState pkts dL dR t0) n).rightQ.length = 0 := by
  obtain ⟨hp, hlq, hrq, _⟩ := syncInv_runN pkts dL dR t0 n
  rw [hlq, hrq, idsFrom_length, idsFrom_length]
  omega

/-- C5: once the input is exhausted, repeated `processStep` calls eventually
return false (within the decoder drain budget), and from the first false
return onwards every call returns false and the new-pair flag stays
cleared. -/
theorem flushing_terminates_done_terminal (pkts : List Pkt) (dL dR : Nat) (t0 : Tag)
    (n : Nat) :
    (runN (initState pkts dL dR t0) n).input = [] →
    (∃ k, k ≤ dL + dR ∧ retN (runN (initState pkts dL dR t0) n) k = false) ∧
    (∀ k j, retN (runN (initState pkts dL dR t0) n) k = false → k ≤ j →
      retN (runN (initState pkts dL dR t0) n) j = false ∧
      (runN (runN (initState pkts dL dR t0) n) (j + 1)).newImg = false) := by
  intro hin
  constructor
  · have hd := runN_drain_le pkts dL dR t0 n
    have h1 := hd.1
    have h2 := hd.2
    have hmu : muDrain (runN (initState pkts dL dR t0) n) ≤ dL + dR := by
      rcases tag_cases (runN (initState pkts dL dR t0) n).lastTag with hlt | hlt | hlt
      · rw [muDrain_L hlt]
        omega
      · rw [muDrain_R hlt]
        omega
      · rw [muDrain_O hlt]
        omega
    exact flush_terminates_aux (dL + dR) _ hin hmu
  · intro k j hret hkj
    have hinu : (runN (runN (initState pkts dL dR t0) n) k).input = [] :=
      input_nil_run hin k
    obtain ⟨hmu0, hst⟩ := ret_false_char hinu hret
    have hrunk : runN (runN (initState pkts dL dR t0) n) (k + 1)
        = (processStep (runN (runN (initState pkts dL dR t0) n) k)).2 := rfl
    have hni1 : (runN (runN (initState pkts dL dR t0) n) (k + 1)).newImg = false := by
      rw [hrunk, hst]
    have hinu' : (runN (runN (initState pkts dL dR t0) n) (k + 1)).input = [] :=
      input_nil_run hin (k + 1)
    have hmu' : muDrain (runN (runN (initState pkts dL dR t0) n) (k + 1)) = 0 := by
      rw [hrunk, hst]
      exact (muDrain_congr rfl rfl rfl).trans hmu0
    rcases Nat.eq_or_lt_of_le hkj with heq | hlt2
    · refine ⟨?_, ?_⟩
      · rw [← heq]
        exact hret
      · rw [← heq]
        exact hni1
    · obtain ⟨hsa, hsb, _, _⟩ := flush_stable hinu' hmu' (j - (k + 1))
      refine ⟨?_, ?_⟩
      · rw [show j = (k + 1) + (j - (k + 1)) from by omega, retN_add]
        exact hsa
      · rw [show j + 1 = (k + 1) + ((j - (k + 1)) + 1) from by omega, runN_add]
        exact hsb

/-- Witness for C5: with an empty input and one buffered left frame the run
reaches a false return within the budget. -/
theorem flushing_terminates_done_terminal_witness :
    ∃ k, k ≤ 1 + 0 ∧ retN (runN (initState [] 1 0 Tag.L) 0) k = false :=
  (flushing_terminates_done_terminal [] 1 0 Tag.L 0 (by decide)).1


/-! ## Auxiliary lemmas: lists and depth conversion -/

theorem getD_map_of_lt {α β : Type} (g : α → β) (l : List α) (i : Nat) (d : α) (e : β)
    (h : i < l.length) : (l.map g).getD i e = g (l.getD i d) := by
  induction l generalizing i with
  | nil => simp at h
  | cons a l ih =>
      cases i with
      | zero => simp [List.getD_cons_zero]
      | succ i =>
          simp only [List.map_cons, List.getD_cons_succ]
          exact ih i (Nat.lt_of_succ_lt_succ h)

theorem getD_of_length_le {α : Type} (l : List α) (i : Nat) (d : α) (h : l.length ≤ i) :
    l.getD i d = d := by
  induction l generalizing i with
  | nil => cases i <;> rfl
  | cons a l ih =>
      cases i with
      | zero => simp at h
      | succ i =>
          simp only [List.getD_cons_succ]
          exact ih i (Nat.le_of_succ_le_succ h)

/-- Evaluation of the conversion at raw value 100 against sentinel 10:
`0.035/0.25 - (100/16)/565 = 1457/11300`, whose reciprocal scaled by the
baseline and 1000 gives `395500/1457 = 271.44...`, truncated to 271. -/
theorem depthPixel_ten_hundred : depthPixel 10 100 = 271 := by
  have h1 : camDist / convergenceDist - (((100 : Nat) : ℚ) / 16) / focalLen
      = 1457 / 11300 := by
    norm_num [camDist, convergenceDist, focalLen]
  have h2 : |camDist / ((1457 : ℚ) / 11300)| = 791 / 2914 := by
    rw [abs_of_nonneg]
    · norm_num [camDist]
    · norm_num [camDist]
  have h3 : ⌊(1000 : ℚ) * (791 / 2914)⌋ = 271 := by
    rw [Int.floor_eq_iff]
    norm_num
  simp only [depthPixel, h1, h2, h3]
  norm_num
  rfl

/-! ## Claim theorems: depth conversion -/

/-- The conversion-loop pixel matches the spec's DepthConverter contract. -/
theorem depthPixel_spec_eq (u r : Nat) : depthPixel u r = specDepthPixel u r := by
  by_cases h1 : r = u
  · simp [depthPixel, specDepthPixel, h1]
  · by_cases h2 : camDist / convergenceDist - ((r : ℚ) / 16) / focalLen = 0
    · simp [depthPixel, specDepthPixel, h1, h2]
    · rcases lt_or_le
        (1000 * |camDist / (camDist / convergenceDist - ((r : ℚ) / 16) / focalLen)|)
        (65535 : ℚ) with h3 | h3
      · simp only [depthPixel, specDepthPixel, if_neg h1, if_neg h2, if_pos h3,
          if_neg (not_le.mpr h3)]
      · simp only [depthPixel, specDepthPixel, if_neg h1, if_neg h2,
          if_neg (not_lt.mpr h3), if_pos h3]

/-- The converted value always fits strictly below the 16-bit overflow
threshold: nothing is wrapped or clamped. -/
theorem depthPixel_le (u r : Nat) : depthPixel u r ≤ 65534 := by
  by_cases h1 : r = u
  · simp [depthPixel, h1]
  · by_cases h2 : camDist / convergenceDist - ((r : ℚ) / 16) / focalLen = 0
    · simp [depthPixel, h1, h2]
    · rcases lt_or_le
        (1000 * |camDist / (camDist / convergenceDist - ((r : ℚ) / 16) / focalLen)|)
        (65535 : ℚ) with h3 | h3
      · have hfl : ⌊1000 * |camDist /
            (camDist / convergenceDist - ((r : ℚ) / 16) / focalLen)|⌋ < (65535 : ℤ) :=
          Int.floor_lt.mpr (by exact_mod_cast h3)
        simp only [depthPixel, if_neg h1, if_neg h2, if_pos h3]
        omega
      · simp only [depthPixel, if_neg h1, if_neg h2, if_neg (not_lt.mpr h3)]
        omega

/-- Lemma: `computeDepth` maps the conversion-loop body over every pixel, with the
sentinel taken as the field minimum of that call. -/
theorem computeDepth_pixel (f : List (List Nat)) (i j : Nat)
    (hj : j < (f.getD i []).length) :
    ((computeDepth f).getD i []).getD j 0
      = depthPixel (fieldMinD f) ((f.getD i []).getD j 0) := by
  have hi : i < f.length := by
    by_contra hno
    push_neg at hno
    rw [getD_of_length_le f i [] hno] at hj
    simp at hj
  show ((f.map (fun row => row.map (depthPixel (fieldMinD f)))).getD i []).getD j 0 = _
  rw [getD_map_of_lt (fun row => row.map (depthPixel (fieldMinD f))) f i [] [] hi]
  rw [getD_map_of_lt (depthPixel (fieldMinD f)) (f.getD i []) j 0 0 hj]

/-- C3: for every pixel of the corrected field, the sentinel (field minimum)
maps to 0, a vanishing denominator maps to 0, a depth at or beyond 65535 mm
maps to 0 rather than wrapping or clamping, and any other value is the
computed depth in millimetres - always representable in 16 bits. -/
theorem depth_conversion_policy :
    (∀ u r : Nat, depthPixel u r = specDepthPixel u r ∧ depthPixel u r ≤ 65534) ∧
    (∀ (f : List (List Nat)) (i j : Nat), j < (f.getD i []).length →
      ((computeDepth f).getD i []).getD j 0
        = depthPixel (fieldMinD f) ((f.getD i []).getD j 0)) :=
  ⟨fun u r => ⟨depthPixel_spec_eq u r, depthPixel_le u r⟩, computeDepth_pixel⟩


/-- Witness for C3: the field `[[10, 100]]` has sentinel 10 and its second
pixel converts to 271 mm. -/
theorem depth_conversion_policy_witness :
    ((computeDepth [[10, 100]]).getD 0 []).getD 1 0 = 271 := by
  have h := depth_conversion_policy.2 [[10, 100]] 0 1 (by decide)
  rw [h]
  have h10 : fieldMinD [[10, 100]] = 10 := by decide
  have h100 : (([[10, 100]] : List (List Nat)).getD 0 []).getD 1 0 = 100 := by decide
  rw [h10, h100]
  exact depthPixel_ten_hundred

/-! ## Claim theorems: stream discovery, per-frame checks, exit status -/

/-- With exactly two video streams of mismatched dimensions the constructor
scan fails: the second stream is rejected again after its index was stored,
and the final count check throws. -/
theorem scanTwo_mismatch (w1 h1 : Nat) (b1 : Bool) (w2 h2 : Nat) (b2 : Bool)
    (hne : w1 ≠ w2 ∨ h1 ≠ h2) :
    ∃ m, scanStreams [StreamD.video w1 h1 b1, StreamD.video w2 h2 b2]
      = Except.error m := by
  cases b1 with
  | false => exact ⟨"cannot decode stream", by simp [scanStreams, scanGo]⟩
  | true =>
      refine ⟨"cannot find matching L/R video streams", ?_⟩
      rcases hne with hne | hne
      · simp [scanStreams, scanGo, Ne.symm hne]
      · simp [scanStreams, scanGo, Ne.symm hne]

/-- C7: both selected streams share the session dimensions - with exactly two
video streams a resolution mismatch is fatal at open time, and every decoded
frame is re-checked: a size change or an unsupported pixel format aborts
with an error while the two 4:2:0 formats pass. -/
theorem resolution_consistency :
    (∀ (w1 h1 : Nat) (b1 : Bool) (w2 h2 : Nat) (b2 : Bool), w1 ≠ w2 ∨ h1 ≠ h2 →
      ∃ m, scanStreams [StreamD.video w1 h1 b1, StreamD.video w2 h2 b2]
        = Except.error m) ∧
    (∀ (w1 h1 : Nat) (b1 : Bool) (w2 h2 : Nat) (b2 : Bool) (w h li ri : Nat),
      scanStreams [StreamD.video w1 h1 b1, StreamD.video w2 h2 b2]
        = Except.ok (w, h, li, ri) →
      w1 = w2 ∧ h1 = h2 ∧ w = w1 ∧ h = h1 ∧ li = 0 ∧ ri = 1) ∧
    (∀ (mw mh fw fh : Nat) (fmt : PixFmt), fw ≠ mw ∨ fh ≠ mh →
      ∃ m, frameCheck mw mh fw fh fmt = Except.error m) ∧
    (∀ (mw mh k : Nat), ∃ m, frameCheck mw mh mw mh (PixFmt.other k) = Except.error m) ∧
    (∀ mw mh : Nat, frameCheck mw mh mw mh PixFmt.yuv420p = Except.ok () ∧
      frameCheck mw mh mw mh PixFmt.yuvj420p = Except.ok ()) := by
  refine ⟨scanTwo_mismatch, ?_, ?_, ?_, ?_⟩
  · intro w1 h1 b1 w2 h2 b2 w h li ri hok
    by_cases e1 : w1 = w2
    · by_cases e2 : h1 = h2
      · subst e1
        subst e2
        cases b1 with
        | false => simp [scanStreams, scanGo] at hok
        | true =>
            cases b2 with
            | false => simp [scanStreams, scanGo] at hok
            | true =>
                have hval : scanStreams [StreamD.video w1 h1 true, StreamD.video w1 h1 true]
                    = Except.ok (w1, h1, 0, 1) := by simp [scanStreams, scanGo]
                rw [hval] at hok
                have hok2 := Except.ok.inj hok
                obtain ⟨hw, hh, hli, hri⟩ : w1 = w ∧ h1 = h ∧ 0 = li ∧ 1 = ri := by
                  simpa using hok2
                exact ⟨rfl, rfl, hw.symm, hh.symm, hli.symm, hri.symm⟩
      · obtain ⟨m, hm⟩ := scanTwo_mismatch w1 h1 b1 w2 h2 b2 (Or.inr e2)
        rw [hm] at hok
        exact absurd hok (by simp)
    · obtain ⟨m, hm⟩ := scanTwo_mismatch w1 h1 b1 w2 h2 b2 (Or.inl e1)
      rw [hm] at hok
      exact absurd hok (by simp)
  · intro mw mh fw fh fmt hne
    exact ⟨"frame size changed", by unfold frameCheck; rw [if_pos hne]⟩
  · intro mw mh k
    refine ⟨"unsupported pixel format", ?_⟩
    unfold frameCheck
    rw [if_neg (by simp)]
  · intro mw mh
    constructor
    · unfold frameCheck
      rw [if_neg (by simp)]
    · unfold frameCheck
      rw [if_neg (by simp)]

/-- Witness for C7: 640x480 against 320x240 streams fail at open time. -/
theorem resolution_consistency_witness :
    ∃ m, scanStreams [StreamD.video 640 480 true, StreamD.video 320 240 true]
      = Except.error m :=
  resolution_consistency.1 640 480 true 320 240 true (by decide)

/-- C10: `main` returns 0 on every run - when argument parsing fails (missing
input file or an unknown flag) and when the session throws and the top-level
handler prints the message. -/
theorem exit_status_always_zero :
    (∀ (args : List (List Char)) (session : Except String Unit),
      mainExitCode args session = 0) ∧
    parseArgsD [] = none ∧
    parseArgsD ["--badflag".toList] = none := by
  refine ⟨?_, by decide, by decide⟩
  intro args session
  unfold mainExitCode
  cases hp : parseArgsD args with
  | none => rfl
  | some o => cases session <;> rfl


/-! ## Auxiliary lemmas: deflation scan

The scan's control flow and write positions depend only on the edge masks,
never on the disparity values: each fill writes the sentinel at
mask-determined positions.  `writeAll` captures that, and idempotence
follows. -/

theorem writeAll_cons (u p : Nat) (ps : List Nat) (dst : List Nat) :
    writeAll u (p :: ps) dst = writeAll u ps (dst.set p u) := rfl

theorem writeAll_append (u : Nat) (a b : List Nat) (dst : List Nat) :
    writeAll u (a ++ b) dst = writeAll u b (writeAll u a dst) := by
  unfold writeAll
  exact List.foldl_append ..

theorem length_writeAll (u : Nat) (ps dst : List Nat) :
    (writeAll u ps dst).length = dst.length := by
  induction ps generalizing dst with
  | nil => rfl
  | cons p ps ih => rw [writeAll_cons, ih, List.length_set]

theorem getElem?_writeAll (u : Nat) (ps dst : List Nat) (j : Nat) :
    (writeAll u ps dst)[j]? = if j ∈ ps ∧ j < dst.length then some u else dst[j]? := by
  induction ps generalizing dst with
  | nil => simp [writeAll]
  | cons p ps ih =>
      rw [writeAll_cons, ih, List.length_set]
      by_cases hin : j ∈ ps ∧ j < dst.length
      · rw [if_pos hin, if_pos ⟨List.mem_cons_of_mem p hin.1, hin.2⟩]
      · rw [if_neg hin]
        by_cases hp : j = p
        · subst hp
          by_cases hl : j < dst.length
          · rw [if_pos ⟨List.mem_cons_self j ps, hl⟩, List.getElem?_set]
            rw [if_pos rfl, if_pos hl]
          · rw [if_neg (by rintro ⟨hmem, hlen⟩; exact hl hlen)]
            rw [List.getElem?_set, if_pos rfl, if_neg hl]
            rw [List.getElem?_eq_none (by omega)]
        · rw [List.getElem?_set, if_neg fun he => hp he.symm]
          rw [if_neg (by
            rintro ⟨hmem, hlen⟩
            rcases List.mem_cons.mp hmem with he | hm
            · exact hp he
            · exact hin ⟨hm, hlen⟩)]

theorem writeAll_idem (u : Nat) (ps dst : List Nat) :
    writeAll u ps (writeAll u ps dst) = writeAll u ps dst := by
  apply List.ext_getElem?
  intro j
  rw [getElem?_writeAll, getElem?_writeAll, length_writeAll]
  by_cases h : j ∈ ps ∧ j < dst.length
  · rw [if_pos h, if_pos h]
  · rw [if_neg h, if_neg h]


theorem backFill_eq (c d : List Nat) (u : Nat) (k : Nat) (dst : List Nat) :
    backFill c d u k dst = writeAll u (backFillPos c d k) dst := by
  induction k generalizing dst with
  | zero => rfl
  | succ k ih =>
      unfold backFill backFillPos
      by_cases h : d.getD k 0 = 0 ∧ c.getD k 0 = 0
      · rw [if_pos h, if_pos h, ih, writeAll_cons]
      · rw [if_neg h, if_neg h]
        rfl

theorem fwdFill_eq (c d : List Nat) (u cols : Nat) (fuel k : Nat) (dst : List Nat) :
    fwdFill c d u cols fuel k dst = writeAll u (fwdFillPos c d cols fuel k) dst := by
  induction fuel generalizing k dst with
  | zero => rfl
  | succ fuel ih =>
      unfold fwdFill fwdFillPos
      by_cases h : k < cols ∧ d.getD k 0 = 0 ∧ c.getD k 0 = 0
      · rw [if_pos h, if_pos h, ih, writeAll_cons]
      · rw [if_neg h, if_neg h]
        rfl

theorem scanGoRow_eq (c d : List Nat) (u cols : Nat) (js : List Nat) (e : Bool)
    (dst : List Nat) :
    scanGoRow c d u cols js e dst = writeAll u (scanPos c d cols js e) dst := by
  induction js generalizing e dst with
  | nil => rfl
  | cons j js ih =>
      unfold scanGoRow scanPos
      by_cases h1 : e = false ∧ 0 < d.getD j 0
      · rw [if_pos h1, if_pos h1, ih, writeAll_append, writeAll_append]
        congr 1
        by_cases h2 : c.getD j 0 = 0
        · rw [if_pos h2, if_pos h2, backFill_eq]
          rfl
        · rw [if_neg h2, if_neg h2, backFill_eq]
          rfl
      · rw [if_neg h1, if_neg h1]
        by_cases h2 : e = true ∧ d.getD j 0 = 0
        · rw [if_pos h2, if_pos h2, ih, writeAll_append, fwdFill_eq]
        · rw [if_neg h2, if_neg h2, ih]

theorem scanRow_idem (c d : List Nat) (u : Nat) (dst : List Nat) :
    scanRow c d u (scanRow c d u dst) = scanRow c d u dst := by
  unfold scanRow
  rw [scanGoRow_eq, scanGoRow_eq]
  exact writeAll_idem u (scanPos c d c.length (List.range c.length) false) dst

theorem getD_range_eq (n i : Nat) (h : i < n) : (List.range n).getD i 0 = i := by
  have hl : i < (List.range n).length := by simpa using h
  rw [List.getD_eq_getElem?_getD, List.getElem?_eq_getElem hl]
  simp [List.getElem_range]

theorem getD_map_range {α : Type} (n : Nat) (g : Nat → α) (i : Nat) (dflt : α)
    (h : i < n) : ((List.range n).map g).getD i dflt = g i := by
  rw [getD_map_of_lt g (List.range n) i 0 dflt (by simpa using h), getD_range_eq n i h]

/-! ## Claim theorems: deflation -/

/-- C8: running the row-wise deflation pass a second time (with the same
edge masks - the scan only reads the masks and writes the sentinel) leaves
the already-deflated field unchanged, with no proviso needed. -/
theorem deflation_idempotent (c d : List (List Nat)) (u : Nat) (f : List (List Nat)) :
    deflateAll c d u (deflateAll c d u f) = deflateAll c d u f := by
  unfold deflateAll
  have hlen : ((List.range f.length).map (fun i =>
      if i < c.length then scanRow (c.getD i []) (d.getD i []) u (f.getD i [])
      else f.getD i [])).length = f.length := by
    simp
  rw [hlen]
  apply List.map_congr_left
  intro i hi
  have hi' : i < f.length := List.mem_range.mp hi
  rw [getD_map_range f.length _ i [] hi']
  by_cases hc : i < c.length
  · simp only [hc, if_true, scanRow_idem]
  · simp only [hc, if_false]


/-! ## Auxiliary lemmas: YUV plane conversion -/

theorem getD_set_self {α : Type} (l : List α) (i : Nat) (a d : α) (h : i < l.length) :
    (l.set i a).getD i d = a := by
  rw [List.getD_eq_getElem?_getD, List.getElem?_set, if_pos rfl, if_pos h]
  rfl

theorem getD_set_other {α : Type} (l : List α) (i j : Nat) (a d : α) (h : i ≠ j) :
    (l.set i a).getD j d = l.getD j d := by
  rw [List.getD_eq_getElem?_getD, List.getElem?_set, if_neg h, ← List.getD_eq_getElem?_getD]

theorem getD_replicate_self {α : Type} (n i : Nat) (a : α) :
    (List.replicate n a).getD i a = a := by
  by_cases h : i < n
  · have hl : i < (List.replicate n a).length := by simpa using h
    rw [List.getD_eq_getElem?_getD, List.getElem?_eq_getElem hl]
    simp [List.getElem_replicate]
  · rw [getD_of_length_le _ _ _ (by simpa using h)]

theorem copyRun_getD (y : List Nat) (n : Nat) :
    ∀ (sp dp : Nat) (dst : List (Option Nat)) (idx : Nat), dp + n ≤ dst.length →
    (copyRun y n sp dp dst).getD idx none =
      (if dp ≤ idx ∧ idx < dp + n then some (y.getD (sp + (idx - dp)) 0)
       else dst.getD idx none) := by
  induction n with
  | zero =>
      intro sp dp dst idx h
      rw [if_neg (by omega)]
      rfl
  | succ n ih =>
      intro sp dp dst idx h
      unfold copyRun
      rw [ih (sp + 1) (dp + 1) _ idx (by rw [List.length_set]; omega)]
      by_cases h1 : dp + 1 ≤ idx ∧ idx < dp + 1 + n
      · rw [if_pos h1, if_pos (by omega)]
        have e : sp + 1 + (idx - (dp + 1)) = sp + (idx - dp) := by omega
        rw [e]
      · rw [if_neg h1]
        by_cases h2 : idx = dp
        · subst h2
          rw [if_pos (by omega), getD_set_self _ _ _ _ (by omega)]
          have e : idx - idx = 0 := by omega
          rw [e]
          simp
        · rw [if_neg (by omega), getD_set_other _ _ _ _ _ (fun he => h2 he.symm)]

theorem convYRows_getD (y : List Nat) (ls0 w8 w : Nat) (hls : w8 ≤ ls0) (n : Nat) :
    ∀ (sp i : Nat), i < n →
    (convYRows y ls0 w8 w n sp).getD i []
      = copyRun y w8 (sp + i * ls0) 0 (List.replicate w none) := by
  induction n with
  | zero =>
      intro sp i h
      omega
  | succ n ih =>
      intro sp i h
      cases i with
      | zero =>
          unfold convYRows
          rw [List.getD_cons_zero]
          have e : sp + 0 * ls0 = sp := by omega
          rw [e]
      | succ i =>
          unfold convYRows
          rw [List.getD_cons_succ, ih _ i (by omega)]
          have e : sp + w8 + (ls0 - w8) + i * ls0 = sp + (i + 1) * ls0 := by
            rw [Nat.succ_mul]
            omega
          rw [e]

theorem pairsRGB_getD (y uP vP : List Nat) (n : Nat) :
    ∀ (sp up vp dp : Nat) (dst : List (Option (Nat × Nat × Nat))) (idx : Nat),
    dp + 2 * n ≤ dst.length →
    (pairsRGB y uP vP n sp up vp dp dst).getD idx none =
      (if dp ≤ idx ∧ idx < dp + 2 * n then
        some (y.getD (sp + (idx - dp)) 0, vP.getD (vp + (idx - dp) / 2) 0,
              uP.getD (up + (idx - dp) / 2) 0)
       else dst.getD idx none) := by
  induction n with
  | zero =>
      intro sp up vp dp dst idx h
      rw [if_neg (by omega)]
      rfl
  | succ n ih =>
      intro sp up vp dp dst idx h
      unfold pairsRGB
      rw [ih (sp + 2) (up + 1) (vp + 1) (dp + 2) _ idx
        (by rw [List.length_set, List.length_set]; omega)]
      by_cases h1 : dp + 2 ≤ idx ∧ idx < dp + 2 + 2 * n
      · rw [if_pos h1, if_pos (by omega)]
        have e1 : sp + 2 + (idx - (dp + 2)) = sp + (idx - dp) := by omega
        have e2 : vp + 1 + (idx - (dp + 2)) / 2 = vp + (idx - dp) / 2 := by omega
        have e3 : up + 1 + (idx - (dp + 2)) / 2 = up + (idx - dp) / 2 := by omega
        rw [e1, e2, e3]
      · rw [if_neg h1]
        by_cases h2 : idx = dp
        · subst h2
          rw [getD_set_other _ _ _ _ _ (by omega), getD_set_self _ _ _ _ (by omega)]
          rw [if_pos (by omega)]
          have e1 : idx - idx = 0 := by omega
          rw [e1]
          simp
        · by_cases h3 : idx = dp + 1
          · subst h3
            rw [getD_set_self _ _ _ _ (by rw [List.length_set]; omega)]
            rw [if_pos (by omega)]
            have e1 : sp + (dp + 1 - dp) = sp + 1 := by omega
            have e2 : vp + (dp + 1 - dp) / 2 = vp := by omega
            have e3 : up + (dp + 1 - dp) / 2 = up := by omega
            rw [e1, e2, e3]
          · rw [getD_set_other _ _ _ _ _ (fun he => h3 he.symm),
              getD_set_other _ _ _ _ _ (fun he => h2 he.symm), if_neg (by omega)]

theorem convRGBRows_getD (y uP vP : List Nat) (ls0 ls1 ls2 w8 w : Nat)
    (hls0 : w8 ≤ ls0) (hu : w8 / 2 ≤ ls1) (hv : w8 / 2 ≤ ls2) (n : Nat) :
    ∀ (i sp up vp k : Nat), k < n →
    (convRGBRows y uP vP ls0 ls1 ls2 w8 w n i sp up vp).getD k []
      = pairsRGB y uP vP (w8 / 2) (sp + k * ls0)
          (up + ((i + k) / 2 - i / 2) * ls1) (vp + ((i + k) / 2 - i / 2) * ls2) 0
          (List.replicate w none) := by
  induction n with
  | zero =>
      intro i sp up vp k h
      omega
  | succ n ih =>
      intro i sp up vp k h
      cases k with
      | zero =>
          unfold convRGBRows
          rw [List.getD_cons_zero]
          have e1 : sp + 0 * ls0 = sp := by omega
          have ec : (i + 0) / 2 - i / 2 = 0 := by omega
          rw [e1, ec]
          have e2 : up + 0 * ls1 = up := by omega
          have e3 : vp + 0 * ls2 = vp := by omega
          rw [e2, e3]
      | succ k =>
          unfold convRGBRows
          rw [List.getD_cons_succ]
          by_cases hp : i % 2 = 1
          · rw [if_pos hp, ih (i + 1) _ _ _ k (by omega)]
            have e1 : sp + w8 + (ls0 - w8) + k * ls0 = sp + (k + 1) * ls0 := by
              rw [Nat.succ_mul]
              omega
            have hAB : (i + 1 + k) / 2 - (i + 1) / 2 + 1 = (i + (k + 1)) / 2 - i / 2 := by
              omega
            have e2 : up + w8 / 2 + (ls1 - w8 / 2) + ((i + 1 + k) / 2 - (i + 1) / 2) * ls1
                = up + ((i + (k + 1)) / 2 - i / 2) * ls1 := by
              rw [← hAB, Nat.succ_mul]
              omega
            have e3 : vp + w8 / 2 + (ls2 - w8 / 2) + ((i + 1 + k) / 2 - (i + 1) / 2) * ls2
                = vp + ((i + (k + 1)) / 2 - i / 2) * ls2 := by
              rw [← hAB, Nat.succ_mul]
              omega
            rw [e1, e2, e3]
          · rw [if_neg hp, ih (i + 1) _ _ _ k (by omega)]
            have e1 : sp + w8 + (ls0 - w8) + k * ls0 = sp + (k + 1) * ls0 := by
              rw [Nat.succ_mul]
              omega
            have hAB : (i + 1 + k) / 2 - (i + 1) / 2 = (i + (k + 1)) / 2 - i / 2 := by
              omega
            have e2 : up + w8 / 2 - w8 / 2 + ((i + 1 + k) / 2 - (i + 1) / 2) * ls1
                = up + ((i + (k + 1)) / 2 - i / 2) * ls1 := by
              rw [hAB]
              omega
            have e3 : vp + w8 / 2 - w8 / 2 + ((i + 1 + k) / 2 - (i + 1) / 2) * ls2
                = vp + ((i + (k + 1)) / 2 - i / 2) * ls2 := by
              rw [hAB]
              omega
            rw [e1, e2, e3]

/-! ## Claim theorems: plane conversion -/

/-- C6 (counterexample): for width 10 (not a multiple of 8), output column 8
of the luma converter receives no converted value, contradicting the claim
that every column including the rightmost `w mod 8` ones is written. -/
theorem yuv_tail_column_unwritten :
    ¬ (∀ j, j < 10 →
        ((convertYUV420ToY (List.replicate 20 7) 10 10 1).getD 0 []).getD j none
          ≠ none) := by
  intro hall
  exact hall 8 (by decide) (by decide)

/-- C6 (amended): the converters copy luma per pixel and replicate each
chroma pair across its 2x2 neighbourhood, but only for the leftmost
`8 * (w / 8)` columns of each row; the rightmost `w mod 8` columns are left
unwritten. -/
theorem yuv_converted_columns (y uP vP : List Nat) (ls0 ls1 ls2 w h i j : Nat)
    (h0 : 8 * (w / 8) ≤ ls0) (h1 : 8 * (w / 8) / 2 ≤ ls1) (h2 : 8 * (w / 8) / 2 ≤ ls2)
    (hi : i < h) (hj : j < w) :
    ((convertYUV420ToY y ls0 w h).getD i []).getD j none
      = (if j < 8 * (w / 8) then some (y.getD (i * ls0 + j) 0) else none) ∧
    ((convertYUV420ToRGB y uP vP ls0 ls1 ls2 w h).getD i []).getD j none
      = (if j < 8 * (w / 8) then
          some (y.getD (i * ls0 + j) 0, vP.getD (i / 2 * ls2 + j / 2) 0,
                uP.getD (i / 2 * ls1 + j / 2) 0)
         else none) := by
  have hw8 : 8 * (w / 8) ≤ w := by omega
  constructor
  · unfold convertYUV420ToY
    rw [convYRows_getD y ls0 (8 * (w / 8)) w h0 h 0 i hi]
    rw [copyRun_getD y (8 * (w / 8)) (0 + i * ls0) 0 _ j
      (by rw [List.length_replicate]; omega)]
    by_cases hj8 : j < 8 * (w / 8)
    · rw [if_pos (by omega), if_pos hj8]
      have e : 0 + i * ls0 + (j - 0) = i * ls0 + j := by omega
      rw [e]
    · rw [if_neg (by omega), if_neg hj8]
      exact getD_replicate_self w j none
  · unfold convertYUV420ToRGB
    rw [convRGBRows_getD y uP vP ls0 ls1 ls2 (8 * (w / 8)) w h0 h1 h2 h 0 0 0 0 i hi]
    have ec : (0 + i) / 2 - 0 / 2 = i / 2 := by omega
    rw [ec]
    have eu : 0 + i / 2 * ls1 = i / 2 * ls1 := by omega
    have ev : 0 + i / 2 * ls2 = i / 2 * ls2 := by omega
    have es : 0 + i * ls0 = i * ls0 := by omega
    rw [eu, ev, es]
    rw [pairsRGB_getD y uP vP (8 * (w / 8) / 2) (i * ls0) (i / 2 * ls1) (i / 2 * ls2) 0 _ j
      (by rw [List.length_replicate]; omega)]
    by_cases hj8 : j < 8 * (w / 8)
    · rw [if_pos (by omega), if_pos hj8]
      have e1 : i * ls0 + (j - 0) = i * ls0 + j := by omega
      have e2 : i / 2 * ls2 + (j - 0) / 2 = i / 2 * ls2 + j / 2 := by omega
      have e3 : i / 2 * ls1 + (j - 0) / 2 = i / 2 * ls1 + j / 2 := by omega
      rw [e1, e2, e3]
    · rw [if_neg (by omega), if_neg hj8]
      exact getD_replicate_self w j none

/-- Witness for C6 (amended): width 10, column 7 is converted (luma copy and
2x2 chroma replication), column 8 is not. -/
theorem yuv_converted_columns_witness :
    ((convertYUV420ToY (List.replicate 20 7) 10 10 1).getD 0 []).getD 7 none
      = (if 7 < 8 * (10 / 8) then
          some ((List.replicate 20 7).getD (0 * 10 + 7) 0) else none) ∧
    ((convertYUV420ToRGB (List.replicate 20 7) (List.replicate 10 3) (List.replicate 10 4)
        10 5 5 10 1).getD 0 []).getD 7 none
      = (if 7 < 8 * (10 / 8) then
          some ((List.replicate 20 7).getD (0 * 10 + 7) 0,
                (List.replicate 10 4).getD (0 / 2 * 5 + 7 / 2) 0,
                (List.replicate 10 3).getD (0 / 2 * 5 + 7 / 2) 0)
         else none) := by
  have hg := yuv_converted_columns (List.replicate 20 7) (List.replicate 10 3)
    (List.replicate 10 4) 10 5 5 10 1 0 7 (by decide) (by decide) (by decide)
    (by decide) (by decide)
  exact ⟨hg.1, hg.2⟩


/-! ## Claim theorems: pipeline configuration -/

/-- C4 (counterexample): with edge-free masks the claimed deflate-median-
convert pipeline removes the centre outlier of `exField` (the median turns
it into the sentinel, hence depth 0), while `computeDepth` as compiled keeps
it and converts it to 271 mm - so `computeDepth` does not apply the
deflation scan and median filter. -/
theorem computeDepth_skips_deflation_median :
    ((computeDepth exField).getD 2 []).getD 2 0
      ≠ ((claimedPipeline exMask exMask exField).getD 2 []).getD 2 0 := by
  have hu : fieldMinD exField = 10 := by decide
  have hL : ((computeDepth exField).getD 2 []).getD 2 0 = 271 := by
    rw [computeDepth_pixel exField 2 2 (by decide)]
    rw [hu, show ((exField.getD 2 []).getD 2 0) = 100 from by decide]
    exact depthPixel_ten_hundred
  have hd : deflateAll exMask exMask 10 exField = exField := by decide
  have hm : median5 exField = List.replicate 5 (List.replicate 5 10) := by decide
  have hR : ((claimedPipeline exMask exMask exField).getD 2 []).getD 2 0 = 0 := by
    show (((median5 (deflateAll exMask exMask (fieldMinD exField) exField)).map
      (fun row => row.map (depthPixel (fieldMinD exField)))).getD 2 []).getD 2 0 = 0
    rw [hu, hd, hm]
    rw [getD_map_of_lt (fun row => row.map (depthPixel 10))
      (List.replicate 5 (List.replicate 5 10)) 2 [] [] (by decide)]
    rw [show (List.replicate 5 (List.replicate 5 10)).getD 2 []
      = List.replicate 5 10 from by decide]
    rw [getD_map_of_lt (depthPixel 10) (List.replicate 5 10) 2 0 0 (by decide)]
    rw [show (List.replicate 5 10).getD 2 0 = 10 from by decide]
    simp [depthPixel]
  rw [hL, hR]
  decide

/-- C4 (amended): as compiled (`USE_STEREO_SGBM = 1`, main.cc:41) every call
to the disparity pipeline applies only the per-call sentinel computation and
the depth conversion loop to the raw field - per pixel exactly the spec's
DepthConverter contract on the raw value - while the deflation scan and the
size-5 median filter are compiled only in the `USE_STEREO_SGBM = 0`
configuration. -/
theorem computeDepth_sgbm_conversion_only (f : List (List Nat)) :
    (computeDepth f).length = f.length ∧
    ∀ i j : Nat, j < (f.getD i []).length →
      ((computeDepth f).getD i []).getD j 0
        = specDepthPixel (fieldMinD f) ((f.getD i []).getD j 0) := by
  constructor
  · show (f.map (fun row => row.map (depthPixel (fieldMinD f)))).length = f.length
    exact List.length_map ..
  · intro i j hj
    rw [computeDepth_pixel f i j hj, depthPixel_spec_eq]

/-- Witness for C4 (amended): the second pixel of `[[10, 100]]` is converted
directly by the spec's per-pixel contract. -/
theorem computeDepth_sgbm_conversion_only_witness :
    ((computeDepth [[10, 100]]).getD 0 []).getD 1 0
      = specDepthPixel (fieldMinD [[10, 100]])
          ((([[10, 100]] : List (List Nat)).getD 0 []).getD 1 0) :=
  (computeDepth_sgbm_conversion_only [[10, 100]]).2 0 1 (by decide)
